import Mathlib

/-!
# Renderer: fixed-size matrices and vectors (`math_utils.hpp`)

A shallow embedding of the `Matrix` / `Vector` / `CommaInitializer` templates.

* Storage `_T data_[_Rows * _Cols]` is a list of length `Rows * Cols`.
* Every C++ member that can leave the defined behaviour of the program returns
  `Except Fault _`: a failed `assert` is one of the `assert*` faults, an unchecked
  access outside the storage (undefined behaviour) is `Fault.outOfRange`.
* A default-constructed local (`Matrix ret;`, indeterminate contents) is an explicit
  argument named as in the source (`ret`, `tmp_`); the theorems quantify over it.
* The element count `size_` is a `size_t`, so a matrix type carries `Rows * Cols < 2 ^ 64`.
  Loop counters (`int i`) range over `Nat`: the loops only count upwards from zero to
  an extent of the shape. `at` takes a signed index and converts it to `size_t` for
  the comparison, as the source does.
* Arithmetic between two element types follows the usual arithmetic conversions,
  packaged as a `Promote` record (operands go to the common type, the result is
  converted back by the assignment).
* A range-based `for` over a vector walks `data_` from `begin()` to `end()`, so it is a
  fold or a map over the storage and cannot fault. `std::sqrt` and `/=` on the element
  type are packaged as a `NormOps` record.
* For the norm members the element type `int` is `Int` with every result wrapped to 32
  bits (`Promote.int`) and with `std::sqrt` through `double` (`NormOps.int`); the floating
  element types are idealised by exact real arithmetic (`NormOps.exact Real.sqrt`).
* An output stream is the text written to it; the text of one element is a parameter.
-/

namespace Renderer

/-- The ways a call can leave the defined behaviour of the program. -/
inductive Fault where
  /-- The arity check `assert((sizeof...(Args) + 1) == (_Rows * _Cols))` of the value-list
  constructor. -/
  | assertArity
  /-- The bounds `assert` of `at`. -/
  | assertBounds
  /-- The check `assert(init_count_ == target_.size())` in the destructor of
  `CommaInitializer`. -/
  | assertInitCount
  /-- An unchecked access outside `data_` (undefined behaviour). -/
  | outOfRange
  deriving DecidableEq, Repr

deriving instance DecidableEq for Except

/-- Class `Matrix<_T, _Rows, _Cols>`: the member `_T data_[size_]`, where
`static constexpr size_t size_ = (_Rows * _Cols)` is a (64 bit) `size_t`. -/
structure Matrix (α : Type) (Rows Cols : Nat) where
  data_ : List α
  size_eq : data_.length = Rows * Cols
  size_fits : Rows * Cols < 2 ^ 64

namespace Matrix

variable {α : Type} {Rows Cols : Nat}

instance [DecidableEq α] : DecidableEq (Matrix α Rows Cols) := fun a b =>
  decidable_of_iff (a.data_ = b.data_)
    ⟨fun h => by cases a; cases b; cases h; rfl, fun h => by rw [h]⟩

/-- Member `size()`. -/
def size (_m : Matrix α Rows Cols) : Nat := Rows * Cols

/-- Member `rows()`. -/
def rows (_m : Matrix α Rows Cols) : Nat := Rows

/-- Member `cols()`. -/
def cols (_m : Matrix α Rows Cols) : Nat := Cols

/-- Read through `operator[](size_t index)`: `data_[index]`, unchecked. -/
def index (m : Matrix α Rows Cols) (i : Nat) : Except Fault α :=
  match m.data_[i]? with
  | some v => .ok v
  | none => .error .outOfRange

/-- Write through the reference returned by `operator[](size_t index)`. -/
def indexAssign (m : Matrix α Rows Cols) (i : Nat) (v : α) :
    Except Fault (Matrix α Rows Cols) :=
  if i < Rows * Cols then
    .ok ⟨m.data_.set i v, by rw [List.length_set]; exact m.size_eq, m.size_fits⟩
  else .error .outOfRange

/-- Read through `operator()(size_t row_index, size_t col_index)`:
`data_[row_index * _Cols + col_index]`, unchecked. -/
def call (m : Matrix α Rows Cols) (row_index col_index : Nat) : Except Fault α :=
  m.index (row_index * Cols + col_index)

/-- Write through the reference returned by `operator()(row_index, col_index)`. -/
def callAssign (m : Matrix α Rows Cols) (row_index col_index : Nat) (v : α) :
    Except Fault (Matrix α Rows Cols) :=
  m.indexAssign (row_index * Cols + col_index) v

end Matrix

/-- Conversion of an `int` to `size_t` (64 bit), as in `index < size_`. -/
def toSizeT (i : Int) : Nat := (i % (2 : Int) ^ 64).toNat

namespace Matrix

variable {α : Type} {Rows Cols : Nat}

/-- Read through `at(int index)`: `assert(index < size_)`, then `data_[index]`. -/
def atIndex (m : Matrix α Rows Cols) (i : Int) : Except Fault α :=
  if toSizeT i < Rows * Cols then
    if 0 ≤ i then m.index i.toNat else .error .outOfRange
  else .error .assertBounds

/-- Write through the reference returned by `at(int index)`. -/
def atIndexAssign (m : Matrix α Rows Cols) (i : Int) (v : α) :
    Except Fault (Matrix α Rows Cols) :=
  if toSizeT i < Rows * Cols then
    if 0 ≤ i then m.indexAssign i.toNat v else .error .outOfRange
  else .error .assertBounds

/-- Read through `at(int row_index, int col_index)`:
`assert((row_index < _Rows) && (col_index < _Cols))`, both comparisons made in `size_t`,
then `data_[row_index * _Cols + col_index]`, an index computed in `size_t`. -/
def atRowCol (m : Matrix α Rows Cols) (row_index col_index : Int) : Except Fault α :=
  if toSizeT row_index < Rows ∧ toSizeT col_index < Cols then
    m.index ((toSizeT row_index * Cols + toSizeT col_index) % 2 ^ 64)
  else .error .assertBounds

/-- Write through the reference returned by `at(int row_index, int col_index)`. -/
def atRowColAssign (m : Matrix α Rows Cols) (row_index col_index : Int) (v : α) :
    Except Fault (Matrix α Rows Cols) :=
  if toSizeT row_index < Rows ∧ toSizeT col_index < Cols then
    m.indexAssign ((toSizeT row_index * Cols + toSizeT col_index) % 2 ^ 64) v
  else .error .assertBounds

end Matrix

/-- The values an `int` (32 bit) can hold. -/
def IsInt (i : Int) : Prop := -(2 : Int) ^ 31 ≤ i ∧ i < (2 : Int) ^ 31

instance (i : Int) : Decidable (IsInt i) := by
  unfold IsInt
  exact inferInstance

/-- Function `unpacker`: `container[pos++] = t`; the new `pos` is returned with the container. -/
def unpacker {α : Type} {Rows Cols : Nat} (container : Matrix α Rows Cols) (t : α) (pos : Nat) :
    Except Fault (Matrix α Rows Cols × Nat) := do
  let c ← container.indexAssign pos t
  pure (c, pos + 1)

namespace Matrix

variable {α : Type} {Rows Cols : Nat}

/-- Constructor `Matrix(_T&& first, Args&&... args)` running on the indeterminate storage
`self`: the arity `assert`, then `unpacker` on `first` and on every element of the pack.
The values are taken after their conversion to the element type, which the assignment
`container[pos++] = t` performs. -/
def ofValues (self : Matrix α Rows Cols) (first : α) (args : List α) :
    Except Fault (Matrix α Rows Cols) :=
  if args.length + 1 = Rows * Cols then do
    let st ← unpacker self first 0
    let st ← args.foldlM (fun (st : Matrix α Rows Cols × Nat) t => unpacker st.1 t st.2) st
    pure st.1
  else .error .assertArity

end Matrix

namespace Matrix

variable {α : Type} {Rows Cols : Nat}

/-- The value stored at flat index `i` of `data_`. -/
def elem (m : Matrix α Rows Cols) (i : Fin (Rows * Cols)) : α :=
  m.data_.get ⟨i.1, by rw [m.size_eq]; exact i.2⟩

/-- The value stored for row `r` and column `c`, at flat index `r * Cols + c`. -/
def entry (m : Matrix α Rows Cols) (r : Fin Rows) (c : Fin Cols) : α :=
  m.elem ⟨r.1 * Cols + c.1,
    Nat.lt_of_lt_of_le (Nat.add_lt_add_left c.2 _)
      (by rw [← Nat.succ_mul]; exact Nat.mul_le_mul_right _ r.2)⟩

end Matrix

/-- The usual arithmetic conversions between an element type `T` (left operand, and the
type that is assigned to) and an operand type `U`: both operands are converted to the
common type `W`, the operation is carried out in `W`, and a compound assignment converts
the result back to `T`. -/
structure Promote (T U W : Type) where
  /-- Conversion of the left operand (of the element type) to the common type. -/
  left : T → W
  /-- Conversion of the right operand to the common type. -/
  right : U → W
  /-- Conversion performed by the assignment to an element. -/
  assign : W → T

/-- Both operands already have the element type: no conversion takes place. -/
def Promote.same (α : Type) : Promote α α α := ⟨id, id, id⟩

/-- Conversion of a fractional value to `int`: truncation toward zero. -/
def truncToInt (q : ℚ) : Int := Int.tdiv q.num q.den

/-- An `int` element type with a fractional operand (`double`, modelled by the rationals,
which is exact on the dyadic values used here): the common type is the fractional one
and the assignment truncates toward zero. -/
def Promote.intFrac : Promote Int ℚ ℚ := ⟨fun n => (n : ℚ), id, truncToInt⟩

namespace Matrix

variable {α T U W : Type} {Rows Cols OtherCols : Nat}

/-- Static member `Zero()`, running on the indeterminate local `ret`. -/
def Zero [OfNat α 0] (ret : Matrix α Rows Cols) : Except Fault (Matrix α Rows Cols) :=
  (List.range ret.size).foldlM (fun ret i => ret.indexAssign i 0) ret

/-- Member `operator*(const Matrix<_U, _Cols, _OtherCols>&)`: the triple loop, with
`_T t{}` and `t += (*this)(i, k) * other_matrix(k, j)`; `ret` is the indeterminate local. -/
def mul [OfNat T 0] [Add W] [Mul W] (cv : Promote T U W) (ret : Matrix T Rows OtherCols)
    (self : Matrix T Rows Cols) (other_matrix : Matrix U Cols OtherCols) :
    Except Fault (Matrix T Rows OtherCols) :=
  (List.range Rows).foldlM (fun ret i =>
    (List.range OtherCols).foldlM (fun ret j => do
      let t ← (List.range Cols).foldlM (fun (t : T) k => do
        let a ← self.call i k
        let b ← other_matrix.call k j
        pure (cv.assign (cv.left t + cv.left a * cv.right b))) (0 : T)
      ret.callAssign i j t) ret) ret

/-- Member `operator*(_U number)`: `ret[i] *= number` on a copy of the receiver. -/
def mulScalar [Mul W] (cv : Promote T U W) (self : Matrix T Rows Cols) (number : U) :
    Except Fault (Matrix T Rows Cols) :=
  (List.range self.size).foldlM (fun ret i => do
    let x ← ret.index i
    ret.indexAssign i (cv.assign (cv.left x * cv.right number))) self

/-- Member `operator/(_U number)`: `ret[i] /= number` on a copy of the receiver. -/
def divScalar [Div W] (cv : Promote T U W) (self : Matrix T Rows Cols) (number : U) :
    Except Fault (Matrix T Rows Cols) :=
  (List.range self.size).foldlM (fun ret i => do
    let x ← ret.index i
    ret.indexAssign i (cv.assign (cv.left x / cv.right number))) self

/-- Member `operator+(const Matrix<_U, _Rows, _Cols>&)`: `ret[i] += other_matrix[i]` on a
copy of the receiver. -/
def add [Add W] (cv : Promote T U W) (self : Matrix T Rows Cols)
    (other_matrix : Matrix U Rows Cols) : Except Fault (Matrix T Rows Cols) :=
  (List.range self.size).foldlM (fun ret i => do
    let x ← ret.index i
    let y ← other_matrix.index i
    ret.indexAssign i (cv.assign (cv.left x + cv.right y))) self

/-- Member `transpose()`: `ret(j, i) = (*this)(i, j)`; `ret` is the indeterminate local. -/
def transpose (ret : Matrix α Cols Rows) (self : Matrix α Rows Cols) :
    Except Fault (Matrix α Cols Rows) :=
  (List.range self.rows).foldlM (fun ret i =>
    (List.range self.cols).foldlM (fun ret j => do
      let x ← self.call i j
      ret.callAssign j i x) ret) ret

/-- Static member `Identity()` of the square specialisation (`_Rows == _Cols`):
`ret(i, j) = 0; if(i == j) ret(i, j) = 1;`, running on the indeterminate local `ret`. -/
def Identity [OfNat α 0] [OfNat α 1] (ret : Matrix α Rows Rows) :
    Except Fault (Matrix α Rows Rows) :=
  (List.range Rows).foldlM (fun ret i =>
    (List.range Rows).foldlM (fun ret j => do
      let ret ← ret.callAssign i j 0
      if i = j then ret.callAssign i j 1 else pure ret) ret) ret

end Matrix

/-- Class `CommaInitializer`. The reference member `target_` is carried as the current
value of the matrix it refers to. -/
structure CommaInitializer (α : Type) (Rows Cols : Nat) where
  target_ : Matrix α Rows Cols
  tmp_ : Matrix α Rows Cols
  init_count_ : Int

namespace CommaInitializer

variable {α : Type} {Rows Cols : Nat}

/-- Constructor `CommaInitializer(Matrix& t, _U val)`: `target_(t), init_count_(1)` and
`tmp_.at(0) = val`, where `tmp_` is default-constructed (indeterminate). -/
def init (t tmp_ : Matrix α Rows Cols) (val : α) :
    Except Fault (CommaInitializer α Rows Cols) := do
  let tmp ← tmp_.atIndexAssign 0 val
  pure ⟨t, tmp, 1⟩

/-- Member `operator,(_U e)`: `tmp_.at(init_count_) = e; init_count_++;`. -/
def comma (self : CommaInitializer α Rows Cols) (e : α) :
    Except Fault (CommaInitializer α Rows Cols) := do
  let tmp ← self.tmp_.atIndexAssign self.init_count_ e
  pure ⟨self.target_, tmp, self.init_count_ + 1⟩

/-- Destructor: `assert(init_count_ == target_.size()); std::swap(target_, tmp_);`.
The value returned is the one the target holds after the swap. -/
def destroy (self : CommaInitializer α Rows Cols) : Except Fault (Matrix α Rows Cols) :=
  if toSizeT self.init_count_ = self.target_.size then .ok self.tmp_
  else .error .assertInitCount

/-- The calls `, e₁, e₂, ...` of a chain, left to right. A call that aborts leaves the
initializer as it was before the call: the only aborting step of `operator,` is the
`assert` inside `at`, which precedes every write. -/
def run : CommaInitializer α Rows Cols → List α →
    CommaInitializer α Rows Cols × Option Fault
  | ci, [] => (ci, none)
  | ci, e :: es =>
    match ci.comma e with
    | .error f => (ci, some f)
    | .ok ci' => run ci' es

end CommaInitializer

/-- Function `operator<<(Matrix& matrix, _U val)`: `CommaInitializer(matrix, val)`. -/
def operatorShl {α : Type} {Rows Cols : Nat} (matrix tmp_ : Matrix α Rows Cols) (val : α) :
    Except Fault (CommaInitializer α Rows Cols) :=
  CommaInitializer.init matrix tmp_ val

/-- The statement `target << first, e₁, e₂, ...;`: the temporary initializer is built by
`operator<<`, fed by `operator,`, and destroyed at the end of the statement. The result
is the value the target holds when the statement ends or the program aborts, and the
fault of the abort, if any. -/
def sequentialInit {α : Type} {Rows Cols : Nat} (target tmp_ : Matrix α Rows Cols)
    (first : α) (rest : List α) : Matrix α Rows Cols × Option Fault :=
  match operatorShl target tmp_ first with
  | .error f => (target, some f)
  | .ok ci =>
    match ci.run rest with
    | (ci', some f) => (ci'.target_, some f)
    | (ci', none) =>
      match ci'.destroy with
      | .error f => (ci'.target_, some f)
      | .ok t => (t, none)

/-- Class `Vector<_T, _Size>`, derived from `Matrix<_T, _Size, 1>`. -/
abbrev Vector (α : Type) (Size : Nat) := Matrix α Size 1

namespace Vector

variable {T U W : Type} {Size : Nat}

/-- Member `dot`: `_T ret{}` and `ret += (*this)[i] * other_vector[i]` for `i` below
`Base::size()`. -/
def dot [OfNat T 0] [Add W] [Mul W] (cv : Promote T U W) (self : Vector T Size)
    (other_vector : Vector U Size) : Except Fault T :=
  (List.range (Matrix.size self)).foldlM (fun (ret : T) i => do
    let a ← Matrix.index self i
    let b ← Matrix.index other_vector i
    pure (cv.assign (cv.left ret + cv.left a * cv.right b))) (0 : T)

end Vector

/-- Function `operator<<(std::ostream& os, const Matrix& matrix)`. The stream is the text
written so far; `fmt` is the text that `os << x` writes for an element `x`. -/
def operatorShlOstream {α : Type} {Rows Cols : Nat} (fmt : α → String) (os : String)
    (matrix : Matrix α Rows Cols) : Except Fault String :=
  (List.range Rows).foldlM (fun os i =>
    (List.range Cols).foldlM (fun os j => do
      let x ← matrix.call i j
      pure (os ++ fmt x ++ " ")) (if i ≠ 0 then os ++ "\n" else os)) os

/-- The two operations of the element type that the norm members use besides `+` and
`*`: `sqrt` is `std::sqrt` applied to a value of the element type with the result
converted back to it by `return`, and `div` is `it /= n` on two values of the element
type. (For an integral element type a zero divisor is undefined behaviour; the value of
`div` there is not constrained.) -/
structure NormOps (T : Type) where
  sqrt : T → T
  div : T → T → T

/-- The value that an `int` (32 bit, two's complement) holds after an arithmetic operation
whose mathematical result is `z`: `z` itself when it is in range, and otherwise `z` wrapped
modulo `2 ^ 32`. (The language leaves signed overflow undefined; the wrap is what the
compiled program computes.) -/
def wrapInt (z : Int) : Int := (z + 2 ^ 31) % 2 ^ 32 - 2 ^ 31

/-- Arithmetic on two operands of type `int`: there is no conversion of the operands, and
the result is the wrapped `int` value. -/
def Promote.int : Promote Int Int Int := ⟨id, id, wrapInt⟩

/-- The result of `std::sqrt` on the `double` that holds the natural number `s` (exactly,
for `s < 2 ^ 53`): the double nearest to the real square root. A double in
`[2 ^ e, 2 ^ (e + 1))` has `f = 52 - e` fractional bits, `m` is the root rounded down to
that many bits, and it is rounded up when the root is at least `m + 1/2` (there are no
ties: `(2 * m + 1) ^ 2` is odd). -/
def sqrtDouble (s : Nat) : ℚ :=
  let f := 52 - Nat.log2 (Nat.sqrt s)
  let m := Nat.sqrt (s * 4 ^ f)
  ((if (2 * m + 1) ^ 2 ≤ 4 * (s * 4 ^ f) then m + 1 else m : Nat) : ℚ) / 2 ^ f

/-- The operations of `int`. `std::sqrt` converts its `int` argument to `double`, and
`return` converts the `double` result to `int` by truncation toward zero; the root of a
negative value is a NaN, whose conversion (undefined in the language) gives `INT_MIN` in
the compiled program. `/` truncates toward zero. A zero divisor, and `INT_MIN / -1`, trap:
the program has no result there, the value of `div` at these arguments stands for none,
and every statement about `div` of `int` is made at other arguments. -/
def NormOps.int : NormOps Int :=
  ⟨fun s => if 0 ≤ s then truncToInt (sqrtDouble s.toNat) else -(2 : Int) ^ 31, Int.tdiv⟩

/-- The operations of an exact field with a given square root function. -/
def NormOps.exact {α : Type} [Div α] (sqrt : α → α) : NormOps α := ⟨sqrt, fun x y => x / y⟩

namespace Vector

variable {T U W : Type} {Size : Nat}

/-- Member `squareNorm`: `_T ret{}` and `ret += it * it` for every element `it`, in
storage order. -/
def squareNorm [OfNat T 0] [Add W] [Mul W] (cv : Promote T T W) (self : Vector T Size) : T :=
  self.data_.foldl (fun ret it => cv.assign (cv.left ret + cv.left it * cv.right it)) (0 : T)

/-- Member `norm`: `std::sqrt(squareNorm())`, returned as `_T`. -/
def norm [OfNat T 0] [Add W] [Mul W] (cv : Promote T T W) (ops : NormOps T)
    (self : Vector T Size) : T :=
  ops.sqrt (squareNorm cv self)

/-- Member `normalize`: `auto n = norm();` and `it /= n` for every element `it` of the
receiver. The value returned is the receiver after the call. -/
def normalize [OfNat T 0] [Add W] [Mul W] (cv : Promote T T W) (ops : NormOps T)
    (self : Vector T Size) : Vector T Size :=
  let n := norm cv ops self
  ⟨self.data_.map (fun it => ops.div it n), by rw [List.length_map]; exact self.size_eq,
    self.size_fits⟩

/-- Member `normalized`: `Vector ret(*this); auto n = norm();` and `it /= n` for every
element `it` of `ret`. The result is the pair of the receiver after the call and the
vector returned. -/
def normalized [OfNat T 0] [Add W] [Mul W] (cv : Promote T T W) (ops : NormOps T)
    (self : Vector T Size) : Vector T Size × Vector T Size :=
  let ret : Vector T Size := ⟨self.data_, self.size_eq, self.size_fits⟩
  let n := norm cv ops self
  (self, ⟨ret.data_.map (fun it => ops.div it n), by rw [List.length_map]; exact ret.size_eq,
    ret.size_fits⟩)

end Vector

/-! ## Loops -/

/-- Invariant rule for a loop over the elements of a list. -/
theorem foldlM_list_inv {σ β : Type} (f : σ → β → Except Fault σ) (l : List β)
    (P : Nat → σ → Prop) (s0 : σ) (h0 : P 0 s0)
    (hstep : ∀ (i : Nat) (hi : i < l.length) (s : σ), P i s →
      ∃ s', f s l[i] = .ok s' ∧ P (i + 1) s') :
    ∃ s, l.foldlM f s0 = .ok s ∧ P l.length s := by
  induction l generalizing P s0 with
  | nil => exact ⟨s0, rfl, h0⟩
  | cons x xs ih =>
    obtain ⟨s1, hs1, hP1⟩ := hstep 0 (by simp) s0 h0
    have hx : f s0 x = .ok s1 := by simpa using hs1
    obtain ⟨s, hs, hP⟩ := ih (fun k => P (k + 1)) s1 hP1
      (fun i hi s hP => by
        have := hstep (i + 1) (by simpa using hi) s hP
        simpa using this)
    refine ⟨s, ?_, hP⟩
    rw [List.foldlM_cons, hx]
    exact hs

/-- Invariant rule for a counting loop `for(int i = 0; i < n; i++)`. -/
theorem foldlM_range_inv {σ : Type} (f : σ → Nat → Except Fault σ) (n : Nat)
    (P : Nat → σ → Prop) (s0 : σ) (h0 : P 0 s0)
    (hstep : ∀ (i : Nat) (s : σ), i < n → P i s → ∃ s', f s i = .ok s' ∧ P (i + 1) s') :
    ∃ s, (List.range n).foldlM f s0 = .ok s ∧ P n s := by
  have := foldlM_list_inv f (List.range n) P s0 h0
    (fun i hi s hP => by
      have hi' : i < n := by simpa using hi
      simpa using hstep i s hi' hP)
  simpa using this

/-- A loop whose body never faults computes the left fold of its pure counterpart. -/
theorem foldlM_range_pure {σ : Type} (n : Nat) (f : σ → Nat → Except Fault σ)
    (g : σ → Fin n → σ) (hf : ∀ (t : σ) (k : Fin n), f t k.1 = .ok (g t k)) (t0 : σ) :
    (List.range n).foldlM f t0 = .ok ((List.finRange n).foldl g t0) := by
  have key : ∀ (l : List (Fin n)) (t : σ),
      (l.map Fin.val).foldlM f t = .ok (l.foldl g t) := by
    intro l
    induction l with
    | nil => intro t; rfl
    | cons x xs ih =>
      intro t
      rw [List.map_cons, List.foldlM_cons, hf t x, List.foldl_cons]
      exact ih (g t x)
  rw [← List.map_coe_finRange n]
  exact key _ t0

/-! ## Conversions -/

theorem toSizeT_natCast_le (n : Nat) : toSizeT (n : Int) ≤ n := by
  unfold toSizeT
  omega

theorem toSizeT_natCast_of_lt {n : Nat} (h : n < 2 ^ 64) : toSizeT (n : Int) = n := by
  unfold toSizeT
  omega

theorem truncToInt_half : truncToInt (1 / 2) = 0 := by
  have hn : ((1 : ℚ) / 2).num = 1 := by norm_num
  have hd : ((1 : ℚ) / 2).den = 2 := by norm_num
  unfold truncToInt
  rw [hn, hd]
  rfl

theorem truncToInt_five_halves : truncToInt (5 / 2) = 2 := by
  have hn : ((5 : ℚ) / 2).num = 5 := by norm_num
  have hd : ((5 : ℚ) / 2).den = 2 := by norm_num
  unfold truncToInt
  rw [hn, hd]
  rfl

theorem truncToInt_intCast (n : Int) : truncToInt (n : ℚ) = n := by
  unfold truncToInt
  simp

theorem fin_one_one (i : Fin (1 * 1)) : i = ⟨0, by decide⟩ := by
  apply Fin.ext
  have := i.2
  simp only
  omega

/-- For an `int` compared with an extent in `size_t`, the comparison holds exactly when the
value is non-negative and below the extent: a negative `int` converts to a value of at
least `2 ^ 64 - 2 ^ 31`. -/
theorem toSizeT_lt_iff {i : Int} (hi : IsInt i) {n : Nat} (hn : n < 2 ^ 63) :
    toSizeT i < n ↔ 0 ≤ i ∧ i < (n : Int) := by
  unfold IsInt at hi
  unfold toSizeT
  omega

theorem toSizeT_of_nonneg {i : Int} (hi : IsInt i) (h0 : 0 ≤ i) : toSizeT i = i.toNat := by
  unfold IsInt at hi
  unfold toSizeT
  omega

theorem wrapInt_of_range {z : Int} (h0 : -(2 : Int) ^ 31 ≤ z) (h1 : z < (2 : Int) ^ 31) :
    wrapInt z = z := by
  unfold wrapInt
  omega

theorem truncToInt_natCast_div (a b : Nat) :
    truncToInt ((a : ℚ) / (b : ℚ)) = ((a / b : Nat) : Int) := by
  unfold truncToInt
  have hq : (0 : ℚ) ≤ (a : ℚ) / (b : ℚ) := by positivity
  have hnum : 0 ≤ ((a : ℚ) / (b : ℚ)).num := Rat.num_nonneg.2 hq
  rw [Int.tdiv_eq_ediv hnum (Int.natCast_nonneg _), ← Rat.floor_def,
    Rat.floor_natCast_div_natCast]
  norm_cast

/-- The floor root of `s` scaled by `K * K` lies between `K` times the floor root of `s`
and `K` times its successor. -/
theorem sqrt_scaled_bounds (s K : Nat) (hK : 0 < K) :
    Nat.sqrt s * K ≤ Nat.sqrt (s * (K * K)) ∧
      Nat.sqrt (s * (K * K)) < (Nat.sqrt s + 1) * K := by
  constructor
  · rw [Nat.le_sqrt]
    calc Nat.sqrt s * K * (Nat.sqrt s * K) = (Nat.sqrt s * Nat.sqrt s) * (K * K) := by ring
      _ ≤ s * (K * K) := Nat.mul_le_mul_right _ (Nat.sqrt_le s)
  · rw [Nat.sqrt_lt]
    calc s * (K * K) < ((Nat.sqrt s + 1) * (Nat.sqrt s + 1)) * (K * K) :=
          Nat.mul_lt_mul_of_pos_right (Nat.lt_succ_sqrt s) (Nat.mul_pos hK hK)
      _ = (Nat.sqrt s + 1) * K * ((Nat.sqrt s + 1) * K) := by ring

/-- Truncating the rounded `double` root of a non-negative `int` value gives the floor
square root: below `2 ^ 31` the rounding never reaches the next integer. -/
theorem sqrtDouble_trunc {s : Nat} (hs : s < 2 ^ 31) :
    truncToInt (sqrtDouble s) = (Nat.sqrt s : Int) := by
  have hr1 : Nat.sqrt s * Nat.sqrt s ≤ s := Nat.sqrt_le s
  have hr2 : s < (Nat.sqrt s + 1) * (Nat.sqrt s + 1) := Nat.lt_succ_sqrt s
  have hr : Nat.sqrt s < 2 ^ 16 := by
    by_contra h
    have h' : 2 ^ 16 ≤ Nat.sqrt s := Nat.le_of_not_lt h
    have : 2 ^ 16 * 2 ^ 16 ≤ Nat.sqrt s * Nat.sqrt s := Nat.mul_le_mul h' h'
    omega
  have hlog : Nat.log2 (Nat.sqrt s) ≤ 15 := by
    rcases Nat.eq_zero_or_pos (Nat.sqrt s) with h0 | hpos
    · rw [h0, Nat.log2_zero]; omega
    · have := (Nat.log2_lt (Nat.pos_iff_ne_zero.1 hpos)).2 hr
      omega
  obtain ⟨f, hf⟩ : ∃ f, f = 52 - Nat.log2 (Nat.sqrt s) := ⟨_, rfl⟩
  have hf37 : 37 ≤ f := by omega
  have hK : 2 ^ 37 ≤ 2 ^ f := Nat.pow_le_pow_right (by decide) hf37
  have h4 : 4 ^ f = 2 ^ f * 2 ^ f := by
    rw [show (4 : Nat) = 2 * 2 from rfl, Nat.mul_pow]
  obtain ⟨K, hKdef⟩ : ∃ K, K = 2 ^ f := ⟨_, rfl⟩
  have hKpos : 0 < K := by rw [hKdef]; positivity
  obtain ⟨hm1, hm2⟩ := sqrt_scaled_bounds s K hKpos
  unfold sqrtDouble
  simp only
  rw [← hf, h4, ← hKdef]
  have hcast : ((2 : ℚ) ^ f) = ((K : Nat) : ℚ) := by rw [hKdef]; push_cast; rfl
  rw [hcast, truncToInt_natCast_div]
  congr 1
  apply Nat.div_eq_of_lt_le
  · split
    · omega
    · exact hm1
  · split
    · rename_i hup
      by_contra hnot
      have heq : Nat.sqrt (s * (K * K)) + 1 = (Nat.sqrt s + 1) * K := by omega
      have hRK : Nat.sqrt s + 1 ≤ K := by omega
      have hs' : s + 1 ≤ (Nat.sqrt s + 1) * (Nat.sqrt s + 1) := hr2
      have h2m : 2 * Nat.sqrt (s * (K * K)) + 1 + 1 = 2 * ((Nat.sqrt s + 1) * K) := by omega
      zify at hup h2m hRK hs'
      nlinarith [hup, h2m, hRK, hs', mul_pos (show (0 : ℤ) < K by exact_mod_cast hKpos)
        (show (0 : ℤ) < K by exact_mod_cast hKpos)]
    · exact hm2

/-- On a non-negative `int` value, `std::sqrt` followed by the conversion to `int` is the
floor square root. -/
theorem int_sqrt_eq {s : Int} (h0 : 0 ≤ s) (h1 : s < (2 : Int) ^ 31) :
    NormOps.int.sqrt s = (Nat.sqrt s.toNat : Int) := by
  show (if 0 ≤ s then truncToInt (sqrtDouble s.toNat) else -(2 : Int) ^ 31) = _
  rw [if_pos h0]
  exact sqrtDouble_trunc (by omega)

/-- On a negative `int` value, `std::sqrt` followed by the conversion to `int` gives
`INT_MIN`. -/
theorem int_sqrt_neg {s : Int} (h : s < 0) : NormOps.int.sqrt s = -(2 : Int) ^ 31 := by
  show (if 0 ≤ s then truncToInt (sqrtDouble s.toNat) else -(2 : Int) ^ 31) = _
  rw [if_neg (by omega)]

theorem int_sqrt_floor {s : Int} (h0 : 0 ≤ s) (h1 : s < (2 : Int) ^ 31) :
    0 ≤ NormOps.int.sqrt s ∧ NormOps.int.sqrt s * NormOps.int.sqrt s ≤ s ∧
      s < (NormOps.int.sqrt s + 1) * (NormOps.int.sqrt s + 1) := by
  rw [int_sqrt_eq h0 h1]
  lift s to ℕ using h0
  rw [Int.toNat_natCast]
  refine ⟨Int.natCast_nonneg _, ?_, ?_⟩
  · exact_mod_cast Nat.sqrt_le s
  · exact_mod_cast Nat.lt_succ_sqrt s

theorem int_sqrt_25 : NormOps.int.sqrt 25 = 5 := by
  rw [int_sqrt_eq (by decide) (by decide), show Int.toNat 25 = 25 from rfl]
  norm_num

/-- While the running sum of squares stays below `2 ^ 31`, accumulation in `int` is exact. -/
theorem foldl_wrap_squares (l : List Int) :
    ∀ acc : Int, 0 ≤ acc → acc + (l.map (fun x => x * x)).sum < (2 : Int) ^ 31 →
      l.foldl (fun ret it => Promote.int.assign
        (Promote.int.left ret + Promote.int.left it * Promote.int.right it)) acc =
        acc + (l.map (fun x => x * x)).sum := by
  induction l with
  | nil => intro acc _ _; simp
  | cons x xs ih =>
    intro acc h0 h
    simp only [List.map_cons, List.sum_cons] at h
    have hx : 0 ≤ x * x := mul_self_nonneg x
    have hxs : 0 ≤ (xs.map (fun x => x * x)).sum := by
      apply List.sum_nonneg
      intro y hy
      obtain ⟨z, _, rfl⟩ := List.mem_map.1 hy
      exact mul_self_nonneg z
    have hstep : Promote.int.assign
        (Promote.int.left acc + Promote.int.left x * Promote.int.right x) = acc + x * x :=
      wrapInt_of_range (by show -(2 : Int) ^ 31 ≤ acc + x * x; linarith)
        (by show acc + x * x < (2 : Int) ^ 31; linarith)
    rw [List.foldl_cons, hstep, ih (acc + x * x) (by linarith) (by linarith)]
    simp only [List.map_cons, List.sum_cons]
    ring

namespace Matrix

variable {α T U W : Type} {Rows Cols OtherCols : Nat}

/-! ## Storage -/

/-- Row-major addressing stays inside the storage. -/
theorem flat_lt {r c : Nat} (hr : r < Rows) (hc : c < Cols) : r * Cols + c < Rows * Cols :=
  calc r * Cols + c < r * Cols + Cols := Nat.add_lt_add_left hc _
    _ = (r + 1) * Cols := (Nat.succ_mul r Cols).symm
    _ ≤ Rows * Cols := Nat.mul_le_mul_right Cols hr

theorem flat_inj {r c r' c' : Nat} (hc : c < Cols) (hc' : c' < Cols)
    (h : r * Cols + c = r' * Cols + c') : r = r' ∧ c = c' := by
  have hC : 0 < Cols := by omega
  have h1 : (r * Cols + c) / Cols = r := by
    rw [Nat.mul_comm, Nat.mul_add_div hC, Nat.div_eq_of_lt hc, Nat.add_zero]
  have h2 : (r' * Cols + c') / Cols = r' := by
    rw [Nat.mul_comm, Nat.mul_add_div hC, Nat.div_eq_of_lt hc', Nat.add_zero]
  have hr : r = r' := by rw [← h1, ← h2, h]
  subst hr
  exact ⟨rfl, by omega⟩

theorem ext_data {a b : Matrix α Rows Cols} (h : a.data_ = b.data_) : a = b := by
  cases a; cases b; cases h; rfl

theorem getElem?_elem (m : Matrix α Rows Cols) (i : Fin (Rows * Cols)) :
    m.data_[i.1]? = some (m.elem i) := by
  have h : i.1 < m.data_.length := by rw [m.size_eq]; exact i.2
  rw [List.getElem?_eq_getElem h]
  rfl

theorem elem_eq_of_getElem? {m : Matrix α Rows Cols} {i : Fin (Rows * Cols)} {v : α}
    (h : m.data_[i.1]? = some v) : m.elem i = v := by
  rw [getElem?_elem] at h
  exact Option.some.inj h

theorem ext_elem {a b : Matrix α Rows Cols} (h : ∀ i, a.elem i = b.elem i) : a = b := by
  apply ext_data
  apply List.ext_getElem?
  intro k
  by_cases hk : k < Rows * Cols
  · have ha := getElem?_elem a ⟨k, hk⟩
    have hb := getElem?_elem b ⟨k, hk⟩
    simp only at ha hb
    rw [ha, hb, h]
  · have ha : a.data_.length ≤ k := by rw [a.size_eq]; omega
    have hb : b.data_.length ≤ k := by rw [b.size_eq]; omega
    rw [List.getElem?_eq_none ha, List.getElem?_eq_none hb]

theorem index_ok_iff (m : Matrix α Rows Cols) (k : Nat) (v : α) :
    m.index k = .ok v ↔ m.data_[k]? = some v := by
  unfold index
  cases h : m.data_[k]? with
  | none => simp
  | some w => simp

theorem index_elem (m : Matrix α Rows Cols) (i : Fin (Rows * Cols)) :
    m.index i.1 = .ok (m.elem i) :=
  (index_ok_iff m i.1 _).2 (getElem?_elem m i)

theorem index_of_lt (m : Matrix α Rows Cols) {k : Nat} (hk : k < Rows * Cols) :
    m.index k = .ok (m.elem ⟨k, hk⟩) :=
  index_elem m ⟨k, hk⟩

theorem call_entry (m : Matrix α Rows Cols) (r : Fin Rows) (c : Fin Cols) :
    m.call r.1 c.1 = .ok (m.entry r c) :=
  index_elem m ⟨r.1 * Cols + c.1, flat_lt r.2 c.2⟩

theorem call_of_lt (m : Matrix α Rows Cols) {r c : Nat} (hr : r < Rows) (hc : c < Cols) :
    m.call r c = .ok (m.entry ⟨r, hr⟩ ⟨c, hc⟩) :=
  call_entry m ⟨r, hr⟩ ⟨c, hc⟩

theorem indexAssign_of_lt (m : Matrix α Rows Cols) {k : Nat} (hk : k < Rows * Cols) (v : α) :
    ∃ m', m.indexAssign k v = .ok m' ∧ m'.data_ = m.data_.set k v := by
  refine ⟨⟨m.data_.set k v, by rw [List.length_set]; exact m.size_eq, m.size_fits⟩, ?_, rfl⟩
  simp [indexAssign, hk]

theorem callAssign_of_lt (m : Matrix α Rows Cols) {r c : Nat} (hr : r < Rows) (hc : c < Cols)
    (v : α) :
    ∃ m', m.callAssign r c v = .ok m' ∧ m'.data_ = m.data_.set (r * Cols + c) v :=
  indexAssign_of_lt m (flat_lt hr hc) v

theorem atIndexAssign_natCast (m : Matrix α Rows Cols) {k : Nat} (hk : k < Rows * Cols)
    (v : α) :
    ∃ m', m.atIndexAssign (k : Int) v = .ok m' ∧ m'.data_ = m.data_.set k v := by
  obtain ⟨m', hm', hd⟩ := indexAssign_of_lt m hk v
  refine ⟨m', ?_, hd⟩
  unfold atIndexAssign
  rw [if_pos (Nat.lt_of_le_of_lt (toSizeT_natCast_le k) hk), if_pos (Int.natCast_nonneg k),
    Int.toNat_natCast]
  exact hm'

theorem ext_entry {a b : Matrix α Rows Cols} (h : ∀ r c, a.entry r c = b.entry r c) :
    a = b := by
  apply ext_elem
  intro i
  have hC : 0 < Cols := by
    rcases Nat.eq_zero_or_pos Cols with h0 | h0
    · have := i.2; simp [h0] at this
    · exact h0
  have hr : i.1 / Cols < Rows := by
    rw [Nat.div_lt_iff_lt_mul hC]; exact i.2
  have hc : i.1 % Cols < Cols := Nat.mod_lt _ hC
  have hi : i = ⟨(i.1 / Cols) * Cols + i.1 % Cols, flat_lt hr hc⟩ := by
    apply Fin.ext
    exact (Nat.div_add_mod' i.1 Cols).symm
  have := h ⟨i.1 / Cols, hr⟩ ⟨i.1 % Cols, hc⟩
  unfold entry at this
  rw [hi]
  exact this

theorem elem_of_getElem? {m : Matrix α Rows Cols} {k : Nat} {v : α} (hk : k < Rows * Cols)
    (h : m.data_[k]? = some v) : m.elem ⟨k, hk⟩ = v :=
  elem_eq_of_getElem? h

theorem entry_of_getElem? {m : Matrix α Rows Cols} {r : Fin Rows} {c : Fin Cols} {v : α}
    (h : m.data_[r.1 * Cols + c.1]? = some v) : m.entry r c = v :=
  elem_eq_of_getElem? h

theorem getElem?_entry (m : Matrix α Rows Cols) (r : Fin Rows) (c : Fin Cols) :
    m.data_[r.1 * Cols + c.1]? = some (m.entry r c) :=
  getElem?_elem m ⟨r.1 * Cols + c.1, flat_lt r.2 c.2⟩

/-! ## The two loop shapes of the operators -/

/-- A loop over all flat indices that rewrites element `i` from its current value. -/
theorem flat_loop (f : Matrix α Rows Cols → Nat → Except Fault (Matrix α Rows Cols))
    (g : Fin (Rows * Cols) → α → α)
    (hf : ∀ (s : Matrix α Rows Cols) (i : Fin (Rows * Cols)),
      ∃ s', f s i.1 = .ok s' ∧ s'.data_ = s.data_.set i.1 (g i (s.elem i)))
    (self : Matrix α Rows Cols) :
    ∃ m, (List.range (Rows * Cols)).foldlM f self = .ok m ∧
      ∀ i, m.elem i = g i (self.elem i) := by
  obtain ⟨m, hm, hP⟩ := foldlM_range_inv f (Rows * Cols)
    (fun k s => ∀ i : Fin (Rows * Cols),
      s.data_[i.1]? = if i.1 < k then some (g i (self.elem i)) else some (self.elem i))
    self (fun i => by simp [getElem?_elem])
    (by
      intro k s hk hs
      obtain ⟨s', hs', hd⟩ := hf s ⟨k, hk⟩
      refine ⟨s', hs', fun i => ?_⟩
      rw [hd]
      by_cases hik : i.1 = k
      · have hl : k < s.data_.length := by rw [s.size_eq]; exact hk
        have hsk : s.elem ⟨k, hk⟩ = self.elem ⟨k, hk⟩ := by
          apply elem_eq_of_getElem?
          have := hs ⟨k, hk⟩
          simpa using this
        have hi : i = ⟨k, hk⟩ := Fin.ext hik
        subst hi
        simp only
        rw [List.getElem?_set_self hl, if_pos (Nat.lt_succ_self k), hsk]
      · have hne : k ≠ i.1 := fun h => hik h.symm
        simp only
        rw [List.getElem?_set_ne hne, hs i]
        by_cases hlt : i.1 < k
        · rw [if_pos hlt, if_pos (by omega)]
        · rw [if_neg hlt, if_neg (by omega)])
  refine ⟨m, hm, fun i => ?_⟩
  apply elem_eq_of_getElem?
  rw [hP i, if_pos i.2]

/-- A doubly nested loop that stores `val i j` at the position `pos i j`. -/
theorem grid_loop (n m : Nat)
    (f : Matrix α Rows Cols → Nat → Nat → Except Fault (Matrix α Rows Cols))
    (pos : Nat → Nat → Nat) (val : Fin n → Fin m → α)
    (hinj : ∀ i j i' j', i < n → j < m → i' < n → j' < m →
      pos i j = pos i' j' → i = i' ∧ j = j')
    (hf : ∀ (s : Matrix α Rows Cols) (i : Fin n) (j : Fin m),
      ∃ s', f s i.1 j.1 = .ok s' ∧ s'.data_ = s.data_.set (pos i.1 j.1) (val i j) ∧
        pos i.1 j.1 < Rows * Cols)
    (ret : Matrix α Rows Cols) :
    ∃ r, (List.range n).foldlM
        (fun ret i => (List.range m).foldlM (fun ret j => f ret i j) ret) ret = .ok r ∧
      ∀ (i : Fin n) (j : Fin m), r.data_[pos i.1 j.1]? = some (val i j) := by
  obtain ⟨r, hr, hP⟩ := foldlM_range_inv
    (fun ret i => (List.range m).foldlM (fun ret j => f ret i j) ret) n
    (fun i s => ∀ (i' : Fin n) (j' : Fin m), i'.1 < i →
      s.data_[pos i'.1 j'.1]? = some (val i' j'))
    ret (fun i' j' hi' => absurd hi' (Nat.not_lt_zero _))
    (by
      intro i s hi hs
      obtain ⟨s', hs', hQ1, hQ2⟩ := foldlM_range_inv (fun ret j => f ret i j) m
        (fun j s' =>
          (∀ (i' : Fin n) (j' : Fin m), i'.1 < i →
            s'.data_[pos i'.1 j'.1]? = some (val i' j')) ∧
          (∀ j' : Fin m, j'.1 < j → s'.data_[pos i j'.1]? = some (val ⟨i, hi⟩ j')))
        s ⟨hs, fun j' hj' => absurd hj' (Nat.not_lt_zero _)⟩
        (by
          intro j t hj ht
          obtain ⟨t', ht', hd, hlt⟩ := hf t ⟨i, hi⟩ ⟨j, hj⟩
          simp only at ht' hd hlt
          refine ⟨t', ht', fun i' j' hi' => ?_, fun j' hj' => ?_⟩
          · have hne : pos i j ≠ pos i'.1 j'.1 := fun h => by
              have := (hinj i j i'.1 j'.1 hi hj i'.2 j'.2 h).1
              omega
            rw [hd, List.getElem?_set_ne hne]
            exact ht.1 i' j' hi'
          · by_cases hjj : j'.1 = j
            · have hj' : j' = ⟨j, hj⟩ := Fin.ext hjj
              subst hj'
              have hl : pos i j < t.data_.length := by rw [t.size_eq]; exact hlt
              rw [hd, List.getElem?_set_self hl]
            · have hne : pos i j ≠ pos i j'.1 := fun h => by
                have := (hinj i j i j'.1 hi hj hi j'.2 h).2
                exact hjj this.symm
              rw [hd, List.getElem?_set_ne hne]
              exact ht.2 j' (by omega))
      refine ⟨s', hs', fun i' j' hi' => ?_⟩
      by_cases hii : i'.1 = i
      · have hi2 : i' = ⟨i, hi⟩ := Fin.ext hii
        subst hi2
        exact hQ2 j' j'.2
      · exact hQ1 i' j' (by omega))
  exact ⟨r, hr, fun i j => hP i j i.2⟩

/-! ## Characterisation of the operators -/

/-- Member `transpose` returns, and element `(j, i)` of the result is element `(i, j)` of the
receiver, whatever the indeterminate local held. -/
theorem transpose_spec (ret : Matrix α Cols Rows) (self : Matrix α Rows Cols) :
    ∃ t, transpose ret self = .ok t ∧
      ∀ (i : Fin Rows) (j : Fin Cols), t.entry j i = self.entry i j := by
  obtain ⟨t, ht, hP⟩ := grid_loop Rows Cols
    (fun (ret : Matrix α Cols Rows) i j => do
      let x ← self.call i j
      ret.callAssign j i x)
    (fun i j => j * Rows + i) (fun i j => self.entry i j)
    (fun i j i' j' hi _ hi' _ h => by
      have := flat_inj hi hi' h
      exact ⟨this.2, this.1⟩)
    (fun s i j => by
      obtain ⟨s', hs', hd⟩ := callAssign_of_lt s j.2 i.2 (self.entry i j)
      refine ⟨s', ?_, hd, flat_lt j.2 i.2⟩
      simp only [call_entry, bind, Except.bind]
      exact hs')
    ret
  exact ⟨t, ht, fun i j => entry_of_getElem? (hP i j)⟩

/-- Member `operator*` returns, and element `(i, j)` of the product is the running sum over `k`
in increasing order, converted to the left element type after every addition. -/
theorem mul_spec [OfNat T 0] [Add W] [Mul W] (cv : Promote T U W)
    (ret : Matrix T Rows OtherCols) (self : Matrix T Rows Cols)
    (other_matrix : Matrix U Cols OtherCols) :
    ∃ p, mul cv ret self other_matrix = .ok p ∧
      ∀ (i : Fin Rows) (j : Fin OtherCols),
        p.entry i j = (List.finRange Cols).foldl
          (fun t k => cv.assign (cv.left t + cv.left (self.entry i k) *
            cv.right (other_matrix.entry k j))) 0 := by
  obtain ⟨p, hp, hP⟩ := grid_loop Rows OtherCols
    (fun (ret : Matrix T Rows OtherCols) i j => do
      let t ← (List.range Cols).foldlM (fun (t : T) k => do
        let a ← self.call i k
        let b ← other_matrix.call k j
        pure (cv.assign (cv.left t + cv.left a * cv.right b))) (0 : T)
      ret.callAssign i j t)
    (fun i j => i * OtherCols + j)
    (fun i j => (List.finRange Cols).foldl
      (fun t k => cv.assign (cv.left t + cv.left (self.entry i k) *
        cv.right (other_matrix.entry k j))) 0)
    (fun i j i' j' _ hj _ hj' h => flat_inj hj hj' h)
    (fun s i j => by
      obtain ⟨s', hs', hd⟩ := callAssign_of_lt s i.2 j.2
        ((List.finRange Cols).foldl
          (fun t k => cv.assign (cv.left t + cv.left (self.entry i k) *
            cv.right (other_matrix.entry k j))) 0)
      refine ⟨s', ?_, hd, flat_lt i.2 j.2⟩
      have hin := foldlM_range_pure Cols
        (fun (t : T) k => do
          let a ← self.call i.1 k
          let b ← other_matrix.call k j.1
          pure (cv.assign (cv.left t + cv.left a * cv.right b)))
        (fun t k => cv.assign (cv.left t + cv.left (self.entry i k) *
            cv.right (other_matrix.entry k j)))
        (fun t k => by
          simp only [call_entry, bind, Except.bind]
          rfl)
        (0 : T)
      simp only [bind, Except.bind] at hin ⊢
      rw [hin]
      exact hs')
    ret
  exact ⟨p, hp, fun i j => entry_of_getElem? (hP i j)⟩

/-- Member `Identity` returns the matrix with ones on the diagonal and zeros elsewhere. -/
theorem Identity_spec [OfNat α 0] [OfNat α 1] (ret : Matrix α Rows Rows) :
    ∃ e, Identity ret = .ok e ∧
      ∀ (i j : Fin Rows), e.entry i j = if i = j then 1 else 0 := by
  obtain ⟨e, he, hP⟩ := grid_loop Rows Rows
    (fun (ret : Matrix α Rows Rows) i j => do
      let ret ← ret.callAssign i j 0
      if i = j then ret.callAssign i j 1 else pure ret)
    (fun i j => i * Rows + j) (fun i j => if i = j then 1 else 0)
    (fun i j i' j' _ hj _ hj' h => flat_inj hj hj' h)
    (fun s i j => by
      obtain ⟨s0, hs0, hd0⟩ := callAssign_of_lt s i.2 j.2 (0 : α)
      by_cases hij : i = j
      · obtain ⟨s1, hs1, hd1⟩ := callAssign_of_lt s0 i.2 j.2 (1 : α)
        refine ⟨s1, ?_, ?_, flat_lt i.2 j.2⟩
        · have hv : i.1 = j.1 := congrArg Fin.val hij
          simp only [bind, Except.bind, hs0, if_pos hv]
          exact hs1
        · simp only [hd1, hd0, List.set_set, if_pos hij]
      · refine ⟨s0, ?_, ?_, flat_lt i.2 j.2⟩
        · have hv : ¬ i.1 = j.1 := fun h => hij (Fin.ext h)
          simp only [bind, Except.bind, hs0, if_neg hv]
          rfl
        · simp only [hd0, if_neg hij])
    ret
  exact ⟨e, he, fun i j => entry_of_getElem? (hP i j)⟩

/-- Member `Zero` returns the matrix whose every element is `0`. -/
theorem Zero_spec [OfNat α 0] (ret : Matrix α Rows Cols) :
    ∃ z, Zero ret = .ok z ∧ ∀ i, z.elem i = 0 :=
  flat_loop (fun ret i => ret.indexAssign i 0) (fun _ _ => 0)
    (fun s i => indexAssign_of_lt s i.2 0) ret

/-- Member `operator*(_U)` returns, and every element is the product taken in the common type
and converted back. -/
theorem mulScalar_spec [Mul W] (cv : Promote T U W) (self : Matrix T Rows Cols) (number : U) :
    ∃ m, mulScalar cv self number = .ok m ∧
      ∀ i, m.elem i = cv.assign (cv.left (self.elem i) * cv.right number) :=
  flat_loop
    (fun ret i => do
      let x ← ret.index i
      ret.indexAssign i (cv.assign (cv.left x * cv.right number)))
    (fun _ x => cv.assign (cv.left x * cv.right number))
    (fun s i => by
      obtain ⟨s', hs', hd⟩ := indexAssign_of_lt s i.2
        (cv.assign (cv.left (s.elem i) * cv.right number))
      refine ⟨s', ?_, hd⟩
      simp only [index_elem, bind, Except.bind]
      exact hs')
    self

/-- Member `operator/(_U)` returns, and every element is the quotient taken in the common type
and converted back. -/
theorem divScalar_spec [Div W] (cv : Promote T U W) (self : Matrix T Rows Cols) (number : U) :
    ∃ m, divScalar cv self number = .ok m ∧
      ∀ i, m.elem i = cv.assign (cv.left (self.elem i) / cv.right number) :=
  flat_loop
    (fun ret i => do
      let x ← ret.index i
      ret.indexAssign i (cv.assign (cv.left x / cv.right number)))
    (fun _ x => cv.assign (cv.left x / cv.right number))
    (fun s i => by
      obtain ⟨s', hs', hd⟩ := indexAssign_of_lt s i.2
        (cv.assign (cv.left (s.elem i) / cv.right number))
      refine ⟨s', ?_, hd⟩
      simp only [index_elem, bind, Except.bind]
      exact hs')
    self

/-- Member `operator+` returns, and every element is the sum taken in the common type and
converted back. -/
theorem add_spec [Add W] (cv : Promote T U W) (self : Matrix T Rows Cols)
    (other_matrix : Matrix U Rows Cols) :
    ∃ m, add cv self other_matrix = .ok m ∧
      ∀ i, m.elem i = cv.assign (cv.left (self.elem i) + cv.right (other_matrix.elem i)) :=
  flat_loop
    (fun ret i => do
      let x ← ret.index i
      let y ← other_matrix.index i
      ret.indexAssign i (cv.assign (cv.left x + cv.right y)))
    (fun i x => cv.assign (cv.left x + cv.right (other_matrix.elem i)))
    (fun s i => by
      obtain ⟨s', hs', hd⟩ := indexAssign_of_lt s i.2
        (cv.assign (cv.left (s.elem i) + cv.right (other_matrix.elem i)))
      refine ⟨s', ?_, hd⟩
      simp only [index_elem, bind, Except.bind]
      exact hs')
    self

/-- With exact arithmetic and no conversion, the running sum of a loop is the sum. -/
theorem foldl_same_eq_sum [Semiring α] (n : Nat) (a b : Fin n → α) :
    (List.finRange n).foldl
      (fun t k => (Promote.same α).assign
        ((Promote.same α).left t + (Promote.same α).left (a k) * (Promote.same α).right (b k)))
      0 = ∑ k, a k * b k := by
  simp only [Promote.same, id]
  rw [Fin.sum_univ_def, List.sum_eq_foldl, List.foldl_map]

theorem unpacker_of_lt (container : Matrix α Rows Cols) (t : α) {pos : Nat}
    (hpos : pos < Rows * Cols) :
    ∃ c, unpacker container t pos = .ok (c, pos + 1) ∧ c.data_ = container.data_.set pos t := by
  obtain ⟨c, hc, hd⟩ := indexAssign_of_lt container hpos t
  exact ⟨c, by simp [unpacker, hc, bind, Except.bind, pure, Except.pure], hd⟩

/-- The value-list constructor stores the values in order, overwriting all of the
indeterminate storage. -/
theorem ofValues_ok (self : Matrix α Rows Cols) (first : α) (args : List α)
    (harity : (first :: args).length = Rows * Cols) :
    ofValues self first args = .ok ⟨first :: args, harity, self.size_fits⟩ := by
  have hlen : args.length + 1 = Rows * Cols := by simpa using harity
  obtain ⟨c0, hc0, hd0⟩ := unpacker_of_lt self first (show 0 < Rows * Cols by omega)
  obtain ⟨st, hst, hpos, hP⟩ := foldlM_list_inv
    (fun (st : Matrix α Rows Cols × Nat) t => unpacker st.1 t st.2) args
    (fun k st => st.2 = k + 1 ∧ ∀ i, i < k + 1 → st.1.data_[i]? = (first :: args)[i]?)
    (c0, 0 + 1)
    (by
      refine ⟨rfl, fun i hi => ?_⟩
      have hi0 : i = 0 := by omega
      subst hi0
      have h0 : 0 < self.data_.length := by rw [self.size_eq]; omega
      simp [hd0, List.getElem?_set_self h0])
    (by
      intro i hi st hst
      obtain ⟨hp, hP⟩ := hst
      obtain ⟨c, hc, hd⟩ := unpacker_of_lt st.1 args[i] (show st.2 < Rows * Cols by omega)
      refine ⟨(c, st.2 + 1), hc, by simp [hp], fun j hj => ?_⟩
      simp only
      rw [hd, hp]
      by_cases hji : j = i + 1
      · subst hji
        have hl : i + 1 < st.1.data_.length := by rw [st.1.size_eq]; omega
        rw [List.getElem?_set_self hl]
        simp [List.getElem?_eq_getElem hi]
      · rw [List.getElem?_set_ne (Ne.symm hji)]
        exact hP j (by omega))
  have hdata : st.1.data_ = first :: args := by
    apply List.ext_getElem?
    intro k
    by_cases hk : k < args.length + 1
    · exact hP k hk
    · have h1 : st.1.data_.length ≤ k := by rw [st.1.size_eq]; omega
      have h2 : (first :: args).length ≤ k := by simp; omega
      rw [List.getElem?_eq_none h1, List.getElem?_eq_none h2]
  unfold ofValues
  rw [if_pos hlen]
  simp only [bind, Except.bind, pure, Except.pure] at hc0 hst ⊢
  rw [hc0]
  simp only
  rw [hst]
  simp only
  congr 1
  exact ext_data hdata

/-! ## Passes over the storage and checked access -/

/-- The storage lists its elements in flat-index order. -/
theorem data_eq_map_elem (m : Matrix α Rows Cols) :
    m.data_ = (List.finRange (Rows * Cols)).map m.elem := by
  apply List.ext_getElem?
  intro k
  by_cases hk : k < Rows * Cols
  · have h1 : k < ((List.finRange (Rows * Cols)).map m.elem).length := by simpa using hk
    rw [List.getElem?_eq_getElem h1, List.getElem_map, List.getElem_finRange]
    exact getElem?_elem m ⟨k, hk⟩
  · have h1 : m.data_.length ≤ k := by rw [m.size_eq]; omega
    have h2 : ((List.finRange (Rows * Cols)).map m.elem).length ≤ k := by simp; omega
    rw [List.getElem?_eq_none h1, List.getElem?_eq_none h2]

/-- A read-only pass over the storage visits the elements in flat-index order. -/
theorem foldl_data {β : Type} (m : Matrix α Rows Cols) (f : β → α → β) (b : β) :
    m.data_.foldl f b = (List.finRange (Rows * Cols)).foldl (fun t k => f t (m.elem k)) b := by
  conv_lhs => rw [data_eq_map_elem m]
  rw [List.foldl_map]

/-- An in-place pass over the storage rewrites every element by the same function. -/
theorem elem_of_data_map {m m' : Matrix α Rows Cols} (g : α → α)
    (h : m'.data_ = m.data_.map g) (i : Fin (Rows * Cols)) : m'.elem i = g (m.elem i) := by
  apply elem_eq_of_getElem?
  rw [h, List.getElem?_map, getElem?_elem]
  rfl

/-- The bounds `assert` of the two-argument `at` holds exactly for valid pairs. -/
theorem assert_rowCol_iff {r c : Int} (hr : IsInt r) (hc : IsInt c)
    (hsize : Rows * Cols < 2 ^ 63) :
    (toSizeT r < Rows ∧ toSizeT c < Cols) ↔
      (0 ≤ r ∧ r < (Rows : Int) ∧ 0 ≤ c ∧ c < (Cols : Int)) := by
  rcases Nat.eq_zero_or_pos Rows with hR | hR
  · subst hR
    constructor
    · intro h; omega
    · intro h; omega
  rcases Nat.eq_zero_or_pos Cols with hC | hC
  · subst hC
    constructor
    · intro h; omega
    · intro h; omega
  have h1 : Rows < 2 ^ 63 := Nat.lt_of_le_of_lt (Nat.le_mul_of_pos_right Rows hC) hsize
  have h2 : Cols < 2 ^ 63 := Nat.lt_of_le_of_lt (Nat.le_mul_of_pos_left Cols hR) hsize
  rw [toSizeT_lt_iff hr h1, toSizeT_lt_iff hc h2]
  constructor
  · rintro ⟨⟨a, b⟩, c, d⟩; exact ⟨a, b, c, d⟩
  · rintro ⟨a, b, c, d⟩; exact ⟨⟨a, b⟩, c, d⟩

/-- For a valid pair the index computed in `size_t` is the row-major flat index. -/
theorem rowCol_index {r c : Int} (hr : IsInt r) (hc : IsInt c)
    (hsize : Rows * Cols < 2 ^ 63)
    (h : 0 ≤ r ∧ r < (Rows : Int) ∧ 0 ≤ c ∧ c < (Cols : Int)) :
    (toSizeT r * Cols + toSizeT c) % 2 ^ 64 = r.toNat * Cols + c.toNat ∧
      r.toNat * Cols + c.toNat < Rows * Cols := by
  have hrn : r.toNat < Rows := by omega
  have hcn : c.toNat < Cols := by omega
  have hlt : r.toNat * Cols + c.toNat < Rows * Cols := flat_lt hrn hcn
  rw [toSizeT_of_nonneg hr h.1, toSizeT_of_nonneg hc h.2.2.1]
  exact ⟨Nat.mod_eq_of_lt (by omega), hlt⟩

/-- Every flat index below the element count is the image of a valid pair. -/
theorem flat_surj {k : Nat} (hk : k < Rows * Cols) :
    ∃ r c, r < Rows ∧ c < Cols ∧ r * Cols + c = k := by
  have hC : 0 < Cols := by
    rcases Nat.eq_zero_or_pos Cols with h0 | h0
    · simp [h0] at hk
    · exact h0
  exact ⟨k / Cols, k % Cols, (Nat.div_lt_iff_lt_mul hC).2 hk, Nat.mod_lt _ hC,
    Nat.div_add_mod' k Cols⟩

/-- At the position `size()` the `assert` of `at` fails. -/
theorem atIndexAssign_size (m : Matrix α Rows Cols) (v : α) :
    m.atIndexAssign ((Rows * Cols : Nat) : Int) v = .error Fault.assertBounds := by
  unfold atIndexAssign
  rw [toSizeT_natCast_of_lt m.size_fits, if_neg (Nat.lt_irrefl _)]

end Matrix

namespace Vector

variable {α T U W : Type} {Size : Nat}

/-- Member `dot` returns the running sum of the element-wise products. -/
theorem dot_spec [OfNat T 0] [Add W] [Mul W] (cv : Promote T U W) (a : Vector T Size)
    (b : Vector U Size) :
    dot cv a b = .ok ((List.finRange (Size * 1)).foldl
      (fun t k => cv.assign (cv.left t + cv.left (Matrix.elem a k) * cv.right (Matrix.elem b k)))
      0) :=
  foldlM_range_pure (Size * 1)
    (fun (ret : T) i => do
      let x ← Matrix.index a i
      let y ← Matrix.index b i
      pure (cv.assign (cv.left ret + cv.left x * cv.right y)))
    (fun t k => cv.assign (cv.left t + cv.left (Matrix.elem a k) * cv.right (Matrix.elem b k)))
    (fun t k => by
      simp only [Matrix.index_elem, bind, Except.bind]
      rfl)
    0

/-- Member `squareNorm` is the running sum of the squares in flat-index order. -/
theorem squareNorm_spec [OfNat T 0] [Add W] [Mul W] (cv : Promote T T W) (v : Vector T Size) :
    squareNorm cv v = (List.finRange (Size * 1)).foldl
      (fun t k => cv.assign (cv.left t + cv.left (Matrix.elem v k) * cv.right (Matrix.elem v k)))
      0 :=
  Matrix.foldl_data v _ _

/-- With exact arithmetic `squareNorm` is the sum of the squares. -/
theorem squareNorm_same_eq_sum [Semiring α] (v : Vector α Size) :
    squareNorm (Promote.same α) v = ∑ i : Fin (Size * 1), Matrix.elem v i * Matrix.elem v i := by
  rw [squareNorm_spec, Matrix.foldl_same_eq_sum]

/-- For an `int` vector whose sum of squares is below `2 ^ 31` the accumulation does not
overflow, and `squareNorm` is the sum of the squares. -/
theorem squareNorm_int_exact (v : Vector Int Size)
    (h : (∑ i : Fin (Size * 1), Matrix.elem v i * Matrix.elem v i) < (2 : Int) ^ 31) :
    squareNorm Promote.int v = ∑ i : Fin (Size * 1), Matrix.elem v i * Matrix.elem v i := by
  have hsum : (v.data_.map (fun x => x * x)).sum =
      ∑ i : Fin (Size * 1), Matrix.elem v i * Matrix.elem v i := by
    conv_lhs => rw [Matrix.data_eq_map_elem v]
    rw [List.map_map, Fin.sum_univ_def]
    rfl
  have := foldl_wrap_squares v.data_ 0 (le_refl 0) (by rw [zero_add, hsum]; exact h)
  rw [zero_add, hsum] at this
  exact this

theorem normalize_elem [OfNat T 0] [Add W] [Mul W] (cv : Promote T T W) (ops : NormOps T)
    (v : Vector T Size) (i : Fin (Size * 1)) :
    Matrix.elem (normalize cv ops v) i = ops.div (Matrix.elem v i) (norm cv ops v) :=
  Matrix.elem_of_data_map (fun it => ops.div it (norm cv ops v)) rfl i

end Vector

/-- Function `operator<<` on a stream always returns; its text is the text before the call
followed, row by row, by a newline before every row but the first and by every element
of the row followed by one space. -/
theorem operatorShlOstream_spec {α : Type} {Rows Cols : Nat} (fmt : α → String) (os : String)
    (matrix : Matrix α Rows Cols) :
    operatorShlOstream fmt os matrix = .ok ((List.finRange Rows).foldl
      (fun os i => (List.finRange Cols).foldl
        (fun os j => os ++ fmt (matrix.entry i j) ++ " ")
        (if i.1 ≠ 0 then os ++ "\n" else os)) os) :=
  foldlM_range_pure Rows _ _
    (fun os i => foldlM_range_pure Cols _ _
      (fun os j => by
        simp only [Matrix.call_entry, bind, Except.bind]
        rfl) _) os

/-! ## The sequential initializer -/

namespace CommaInitializer

variable {α : Type} {Rows Cols : Nat}

theorem comma_ok (ci : CommaInitializer α Rows Cols) (e : α) {k : Nat}
    (hc : ci.init_count_ = (k : Int)) (hk : k < Rows * Cols) :
    ∃ ci', ci.comma e = .ok ci' ∧ ci'.target_ = ci.target_ ∧
      ci'.init_count_ = ((k + 1 : Nat) : Int) ∧ ci'.tmp_.data_ = ci.tmp_.data_.set k e := by
  obtain ⟨t, ht, hd⟩ := Matrix.atIndexAssign_natCast ci.tmp_ hk e
  refine ⟨⟨ci.target_, t, ci.init_count_ + 1⟩, ?_, rfl, ?_, hd⟩
  · unfold comma
    rw [hc]
    simp only [bind, Except.bind, ht]
    rfl
  · simp only [hc]
    omega

/-- As long as the staged storage has room, every `operator,` call succeeds, stores its
value at the next position, and leaves the target alone. -/
theorem run_ok (rest : List α) :
    ∀ (ci : CommaInitializer α Rows Cols) (k : Nat), ci.init_count_ = (k : Int) →
      k + rest.length ≤ Rows * Cols →
      ∃ ci', ci.run rest = (ci', none) ∧ ci'.target_ = ci.target_ ∧
        ci'.init_count_ = ((k + rest.length : Nat) : Int) ∧
        ∀ i, ci'.tmp_.data_[i]? =
          if k ≤ i ∧ i < k + rest.length then rest[i - k]? else ci.tmp_.data_[i]? := by
  induction rest with
  | nil =>
    intro ci k hc _
    refine ⟨ci, rfl, rfl, by simpa using hc, fun i => ?_⟩
    rw [if_neg (by simp)]
  | cons e es ih =>
    intro ci k hc hlen
    have hlen' : k + (es.length + 1) ≤ Rows * Cols := by simpa using hlen
    obtain ⟨ci1, h1, ht1, hc1, hd1⟩ := comma_ok ci e hc (show k < Rows * Cols by omega)
    obtain ⟨ci', h', ht', hc', hd'⟩ := ih ci1 (k + 1) hc1 (by omega)
    refine ⟨ci', ?_, ht'.trans ht1, ?_, fun i => ?_⟩
    · simp only [run, h1]
      exact h'
    · rw [hc']
      simp only [List.length_cons]
      congr 1
      omega
    · rw [hd' i, hd1]
      simp only [List.length_cons]
      by_cases hik : i = k
      · subst hik
        have hl : i < ci.tmp_.data_.length := by rw [ci.tmp_.size_eq]; omega
        rw [if_neg (by omega), if_pos (by omega), List.getElem?_set_self hl]
        simp
      · by_cases hin : k + 1 ≤ i ∧ i < k + 1 + es.length
        · rw [if_pos hin, if_pos (by omega)]
          have : i - k = (i - (k + 1)) + 1 := by omega
          rw [this, List.getElem?_cons_succ]
        · rw [if_neg hin, if_neg (by omega), List.getElem?_set_ne (fun h => hik h.symm)]

/-- A chain with more values than the staged storage has room for aborts in the `assert`
of `at`, at the call that finds the storage full, with the target untouched. -/
theorem run_overfill (rest : List α) :
    ∀ (ci : CommaInitializer α Rows Cols) (k : Nat), ci.init_count_ = (k : Int) →
      k ≤ Rows * Cols → Rows * Cols < k + rest.length →
      ∃ ci', ci.run rest = (ci', some Fault.assertBounds) ∧ ci'.target_ = ci.target_ ∧
        ci'.init_count_ = ((Rows * Cols : Nat) : Int) := by
  induction rest with
  | nil =>
    intro ci k _ hk hlen
    simp only [List.length_nil] at hlen
    omega
  | cons e es ih =>
    intro ci k hc hk hlen
    have hlen' : Rows * Cols < k + (es.length + 1) := by simpa using hlen
    by_cases hfull : k = Rows * Cols
    · refine ⟨ci, ?_, rfl, by rw [hc, hfull]⟩
      have hfail : ci.comma e = .error Fault.assertBounds := by
        unfold comma
        rw [hc, hfull, Matrix.atIndexAssign_size]
        rfl
      simp only [run, hfail]
    · obtain ⟨ci1, h1, ht1, hc1, _⟩ := comma_ok ci e hc (show k < Rows * Cols by omega)
      obtain ⟨ci', h', ht', hc'⟩ := ih ci1 (k + 1) hc1 (by omega) (by omega)
      refine ⟨ci', ?_, ht'.trans ht1, hc'⟩
      simp only [run, h1]
      exact h'

end CommaInitializer

/-- A chain that does not overfill the staged storage reaches the destructor with the
target untouched, the count of values supplied, and the values staged in order. -/
theorem sequentialInit_reaches_destroy {α : Type} {Rows Cols : Nat} (target tmp_ : Matrix α Rows Cols) (first : α)
    (rest : List α) (hlen : (first :: rest).length ≤ Rows * Cols) :
    ∃ ci : CommaInitializer α Rows Cols,
      sequentialInit target tmp_ first rest =
        (match ci.destroy with
          | .error f => (ci.target_, some f)
          | .ok t => (t, none)) ∧
      ci.target_ = target ∧ ci.init_count_ = (((first :: rest).length : Nat) : Int) ∧
      ∀ i, i < (first :: rest).length → ci.tmp_.data_[i]? = (first :: rest)[i]? := by
  have hlen' : rest.length + 1 ≤ Rows * Cols := by simpa using hlen
  obtain ⟨t0, ht0, hd0⟩ := Matrix.atIndexAssign_natCast tmp_ (show 0 < Rows * Cols by omega) first
  have hinit : operatorShl target tmp_ first = .ok ⟨target, t0, 1⟩ := by
    simp only [Nat.cast_zero] at ht0
    simp only [operatorShl, CommaInitializer.init, bind, Except.bind, ht0]
    rfl
  obtain ⟨ci, hrun, htgt, hcnt, hdata⟩ :=
    CommaInitializer.run_ok rest (⟨target, t0, 1⟩ : CommaInitializer α Rows Cols) 1
      (by simp) (by omega)
  refine ⟨ci, ?_, htgt, ?_, fun i hi => ?_⟩
  · simp only [sequentialInit, hinit, hrun]
  · rw [hcnt]
    simp only [List.length_cons]
    congr 1
    omega
  · have hi' : i < rest.length + 1 := by simpa using hi
    rw [hdata i]
    by_cases h0 : i = 0
    · subst h0
      have hl : 0 < tmp_.data_.length := by rw [tmp_.size_eq]; omega
      rw [if_neg (by omega)]
      simp only [hd0]
      rw [List.getElem?_set_self hl]
      simp
    · rw [if_pos (by omega)]
      have : i = (i - 1) + 1 := by omega
      rw [this, List.getElem?_cons_succ]
      simp

/-! ## The claims -/

namespace Matrix

variable {α T U W : Type} {Rows Cols OtherCols : Nat}

/-- Claim C1: for every shape and every list of exactly `Rows * Cols` values, the matrix
constructed from the list (whatever the storage held before) returns, when read at
flat index `i`, exactly the `i`-th value of the list. -/
theorem ofValues_index (self : Matrix α Rows Cols) (first : α) (args : List α)
    (harity : (first :: args).length = Rows * Cols) :
    ∃ m, ofValues self first args = .ok m ∧
      ∀ (i : Nat) (hi : i < (first :: args).length),
        m.index i = .ok ((first :: args).get ⟨i, hi⟩) := by
  refine ⟨⟨first :: args, harity, self.size_fits⟩, ofValues_ok self first args harity,
    fun i hi => ?_⟩
  rw [index_ok_iff]
  exact List.getElem?_eq_getElem hi

/-- Witness for `ofValues_index`: a 2 x 3 matrix built from six values. -/
theorem ofValues_index_witness :
    ∃ m, ofValues (⟨[0, 0, 0, 0, 0, 0], rfl, by decide⟩ : Matrix Int 2 3) 7
        [8, 9, 10, 11, 12] = .ok m ∧
      ∀ (i : Nat) (hi : i < ((7 : Int) :: [8, 9, 10, 11, 12]).length),
        m.index i = .ok (((7 : Int) :: [8, 9, 10, 11, 12]).get ⟨i, hi⟩) :=
  ofValues_index _ 7 [8, 9, 10, 11, 12] rfl

/-- Claim C2: for every square matrix `m` over a commutative ring, `m * Identity()` and
`Identity() * m` both return `m`, whatever the indeterminate locals held. -/
theorem mul_Identity [CommRing α] (m ret₁ ret₂ ret₃ : Matrix α Rows Rows) :
    ∃ e, Identity ret₁ = .ok e ∧
      mul (Promote.same α) ret₂ m e = .ok m ∧
      mul (Promote.same α) ret₃ e m = .ok m := by
  obtain ⟨e, he, hE⟩ := Identity_spec ret₁
  obtain ⟨p, hp, hP⟩ := mul_spec (Promote.same α) ret₂ m e
  obtain ⟨q, hq, hQ⟩ := mul_spec (Promote.same α) ret₃ e m
  have hpm : p = m := by
    apply ext_entry
    intro i j
    rw [hP i j, foldl_same_eq_sum]
    simp [hE]
  have hqm : q = m := by
    apply ext_entry
    intro i j
    rw [hQ i j, foldl_same_eq_sum]
    simp [hE]
  exact ⟨e, he, hpm ▸ hp, hqm ▸ hq⟩

/-- Scenario of C2: the 2 x 2 integer matrix `(1,2,3,4)` multiplied by `Identity()`. -/
theorem mul_Identity_witness :
    ∃ e, Identity (⟨[7, 7, 7, 7], rfl, by decide⟩ : Matrix Int 2 2) = .ok e ∧
      mul (Promote.same Int) (⟨[8, 8, 8, 8], rfl, by decide⟩ : Matrix Int 2 2)
        (⟨[1, 2, 3, 4], rfl, by decide⟩ : Matrix Int 2 2) e =
          .ok ⟨[1, 2, 3, 4], rfl, by decide⟩ ∧
      mul (Promote.same Int) (⟨[9, 9, 9, 9], rfl, by decide⟩ : Matrix Int 2 2) e
        (⟨[1, 2, 3, 4], rfl, by decide⟩ : Matrix Int 2 2) =
          .ok ⟨[1, 2, 3, 4], rfl, by decide⟩ :=
  mul_Identity _ _ _ _

/-- Claim C3: over a commutative ring, `transpose(A * B)` is `transpose(B) * transpose(A)`:
all five calls return, and the two sides are the same matrix. -/
theorem transpose_mul [CommRing α] (A : Matrix α Rows Cols) (B : Matrix α Cols OtherCols)
    (ret₁ : Matrix α Rows OtherCols) (ret₂ : Matrix α OtherCols Rows)
    (ret₃ : Matrix α OtherCols Cols) (ret₄ : Matrix α Cols Rows)
    (ret₅ : Matrix α OtherCols Rows) :
    ∃ ab abT bT aT,
      mul (Promote.same α) ret₁ A B = .ok ab ∧ transpose ret₂ ab = .ok abT ∧
      transpose ret₃ B = .ok bT ∧ transpose ret₄ A = .ok aT ∧
      mul (Promote.same α) ret₅ bT aT = .ok abT := by
  obtain ⟨ab, hab, hAB⟩ := mul_spec (Promote.same α) ret₁ A B
  obtain ⟨abT, habT, hABT⟩ := transpose_spec ret₂ ab
  obtain ⟨bT, hbT, hBT⟩ := transpose_spec ret₃ B
  obtain ⟨aT, haT, hAT⟩ := transpose_spec ret₄ A
  obtain ⟨q, hq, hQ⟩ := mul_spec (Promote.same α) ret₅ bT aT
  have hqe : q = abT := by
    apply ext_entry
    intro j i
    rw [hQ j i, hABT i j, hAB i j, foldl_same_eq_sum, foldl_same_eq_sum]
    apply Finset.sum_congr rfl
    intro k _
    rw [hBT k j, hAT i k, mul_comm]
  exact ⟨ab, abT, bT, aT, hab, habT, hbT, haT, hqe ▸ hq⟩

/-- Instance of C3 on a 1 x 2 and a 2 x 2 integer matrix. -/
theorem transpose_mul_witness :
    ∃ ab abT bT aT,
      mul (Promote.same Int) (⟨[0, 0], rfl, by decide⟩ : Matrix Int 1 2)
        (⟨[1, 2], rfl, by decide⟩ : Matrix Int 1 2)
        (⟨[3, 4, 5, 6], rfl, by decide⟩ : Matrix Int 2 2) = .ok ab ∧
      transpose (⟨[0, 0], rfl, by decide⟩ : Matrix Int 2 1) ab = .ok abT ∧
      transpose (⟨[0, 0, 0, 0], rfl, by decide⟩ : Matrix Int 2 2)
        (⟨[3, 4, 5, 6], rfl, by decide⟩ : Matrix Int 2 2) = .ok bT ∧
      transpose (⟨[0, 0], rfl, by decide⟩ : Matrix Int 2 1)
        (⟨[1, 2], rfl, by decide⟩ : Matrix Int 1 2) = .ok aT ∧
      mul (Promote.same Int) (⟨[0, 0], rfl, by decide⟩ : Matrix Int 2 1) bT aT = .ok abT :=
  transpose_mul _ _ _ _ _ _ _

/-- Claim C4: for every `Rows x Cols` matrix `m`, `m.transpose()` returns a matrix whose
element `(j, i)` is element `(i, j)` of `m`, and transposing that result returns `m`. -/
theorem transpose_transpose (m : Matrix α Rows Cols) (ret₁ : Matrix α Cols Rows)
    (ret₂ : Matrix α Rows Cols) :
    ∃ t, transpose ret₁ m = .ok t ∧
      (∀ (i : Fin Rows) (j : Fin Cols),
        t.call j.1 i.1 = m.call i.1 j.1 ∧ m.call i.1 j.1 = .ok (m.entry i j)) ∧
      transpose ret₂ t = .ok m := by
  obtain ⟨t, ht, hT⟩ := transpose_spec ret₁ m
  obtain ⟨u, hu, hU⟩ := transpose_spec ret₂ t
  have hum : u = m := by
    apply ext_entry
    intro i j
    rw [hU j i, hT i j]
  refine ⟨t, ht, fun i j => ⟨?_, call_entry m i j⟩, hum ▸ hu⟩
  rw [call_entry, call_entry, hT i j]

/-- Instance of C4 on a rectangular 2 x 3 matrix. -/
theorem transpose_transpose_witness :
    ∃ t, transpose (⟨[0, 0, 0, 0, 0, 0], rfl, by decide⟩ : Matrix Int 3 2)
        (⟨[1, 2, 3, 4, 5, 6], rfl, by decide⟩ : Matrix Int 2 3) = .ok t ∧
      (∀ (i : Fin 2) (j : Fin 3),
        t.call j.1 i.1 = (⟨[1, 2, 3, 4, 5, 6], rfl, by decide⟩ : Matrix Int 2 3).call i.1 j.1 ∧
        (⟨[1, 2, 3, 4, 5, 6], rfl, by decide⟩ : Matrix Int 2 3).call i.1 j.1 =
          .ok ((⟨[1, 2, 3, 4, 5, 6], rfl, by decide⟩ : Matrix Int 2 3).entry i j)) ∧
      transpose (⟨[9, 9, 9, 9, 9, 9], rfl, by decide⟩ : Matrix Int 2 3) t =
        .ok ⟨[1, 2, 3, 4, 5, 6], rfl, by decide⟩ :=
  transpose_transpose _ _ _

end Matrix

section Initializer

variable {α : Type} {Rows Cols : Nat}

/-- Claim C5: for every target and every chain of exactly `size()` values, the statement
ends without a fault and the target then equals the matrix constructed directly from
the same value list, whatever the target and the staged storage held before. -/
theorem sequentialInit_exact (target tmp_ self : Matrix α Rows Cols) (first : α)
    (rest : List α) (hlen : (first :: rest).length = Rows * Cols) :
    ∃ m, Matrix.ofValues self first rest = .ok m ∧
      sequentialInit target tmp_ first rest = (m, none) := by
  obtain ⟨ci, hrun, _, hcnt, hdata⟩ :=
    sequentialInit_reaches_destroy target tmp_ first rest (Nat.le_of_eq hlen)
  refine ⟨⟨first :: rest, hlen, self.size_fits⟩, Matrix.ofValues_ok self first rest hlen, ?_⟩
  have hsz : toSizeT ci.init_count_ = Rows * Cols := by
    rw [hcnt, hlen]
    exact toSizeT_natCast_of_lt target.size_fits
  have hd : ci.destroy = .ok ci.tmp_ := by
    unfold CommaInitializer.destroy
    exact if_pos hsz
  have htmp : ci.tmp_ = ⟨first :: rest, hlen, self.size_fits⟩ := by
    apply Matrix.ext_data
    apply List.ext_getElem?
    intro k
    by_cases hk : k < (first :: rest).length
    · exact hdata k hk
    · have h1 : ci.tmp_.data_.length ≤ k := by rw [ci.tmp_.size_eq, ← hlen]; omega
      have h2 : (first :: rest).length ≤ k := by omega
      rw [List.getElem?_eq_none h1, List.getElem?_eq_none h2]
  rw [hrun, hd, htmp]

/-- Instance of C5: a 2 x 2 target filled by `target << 1, 2, 3, 4;`. -/
theorem sequentialInit_exact_witness :
    ∃ m, Matrix.ofValues (⟨[0, 0, 0, 0], rfl, by decide⟩ : Matrix Int 2 2) 1 [2, 3, 4] = .ok m ∧
      sequentialInit (⟨[5, 6, 7, 8], rfl, by decide⟩ : Matrix Int 2 2)
        ⟨[9, 9, 9, 9], rfl, by decide⟩ 1 [2, 3, 4] = (m, none) :=
  sequentialInit_exact _ _ _ 1 [2, 3, 4] rfl

/-- Claim C6: for every target and every chain that supplies fewer than `size()` values
(at least the first one), the `assert` of the destructor fails and the target is
exactly what it was before the chain started. -/
theorem sequentialInit_underfilled (target tmp_ : Matrix α Rows Cols) (first : α)
    (rest : List α) (hlen : (first :: rest).length < Rows * Cols) :
    sequentialInit target tmp_ first rest = (target, some Fault.assertInitCount) := by
  obtain ⟨ci, hrun, htgt, hcnt, _⟩ :=
    sequentialInit_reaches_destroy target tmp_ first rest (Nat.le_of_lt hlen)
  have hfit : (first :: rest).length < 2 ^ 64 := Nat.lt_trans hlen target.size_fits
  have hsz : toSizeT ci.init_count_ ≠ Rows * Cols := by
    rw [hcnt, toSizeT_natCast_of_lt hfit]
    exact Nat.ne_of_lt hlen
  have hd : ci.destroy = .error Fault.assertInitCount := by
    unfold CommaInitializer.destroy
    exact if_neg (fun h => hsz h)
  rw [hrun, hd, htgt]

/-- Instance of C6: `target << 1, 2, 3;` on a 2 x 2 target. -/
theorem sequentialInit_underfilled_witness :
    sequentialInit (⟨[5, 6, 7, 8], rfl, by decide⟩ : Matrix Int 2 2)
      ⟨[9, 9, 9, 9], rfl, by decide⟩ 1 [2, 3] =
        (⟨[5, 6, 7, 8], rfl, by decide⟩, some Fault.assertInitCount) :=
  sequentialInit_underfilled _ _ 1 [2, 3] (by decide)

end Initializer

namespace Matrix

variable {α T U W : Type} {Rows Cols OtherCols : Nat}

/-- Claim C7: for every shape, `Zero()` returns a matrix `z` whose every element reads `0`;
`m + z` returns `m` for every `m` of that shape, and `z + z` returns `z`. -/
theorem add_Zero [AddMonoid α] (m ret : Matrix α Rows Cols) :
    ∃ z, Zero ret = .ok z ∧
      (∀ i : Fin (Rows * Cols), z.index i.1 = .ok 0) ∧
      add (Promote.same α) m z = .ok m ∧
      add (Promote.same α) z z = .ok z := by
  obtain ⟨z, hz, hZ⟩ := Zero_spec ret
  obtain ⟨p, hp, hP⟩ := add_spec (Promote.same α) m z
  obtain ⟨q, hq, hQ⟩ := add_spec (Promote.same α) z z
  have hpm : p = m := by
    apply ext_elem
    intro i
    rw [hP i, hZ i]
    simp [Promote.same]
  have hqz : q = z := by
    apply ext_elem
    intro i
    rw [hQ i, hZ i]
    simp [Promote.same]
  refine ⟨z, hz, fun i => ?_, hpm ▸ hp, hqz ▸ hq⟩
  rw [index_elem, hZ i]

/-- Instance of C7 on a 2 x 2 integer matrix. -/
theorem add_Zero_witness :
    ∃ z, Zero (⟨[5, 6, 7, 8], rfl, by decide⟩ : Matrix Int 2 2) = .ok z ∧
      (∀ i : Fin (2 * 2), z.index i.1 = .ok 0) ∧
      add (Promote.same Int) (⟨[1, 2, 3, 4], rfl, by decide⟩ : Matrix Int 2 2) z =
        .ok ⟨[1, 2, 3, 4], rfl, by decide⟩ ∧
      add (Promote.same Int) z z = .ok z :=
  add_Zero _ _

end Matrix

namespace Vector

variable {α T U W : Type} {Size : Nat}

/-- Claim C8: for vectors `a`, `b` of the same length over a commutative ring, `a.dot(b)`
and `b.dot(a)` return the same value, the sum over `i` of `a[i] * b[i]`. -/
theorem dot_comm [CommRing α] (a b : Vector α Size) :
    dot (Promote.same α) a b = dot (Promote.same α) b a ∧
      dot (Promote.same α) a b = .ok (∑ i : Fin (Size * 1), Matrix.elem a i * Matrix.elem b i) := by
  have hab := dot_spec (Promote.same α) a b
  have hba := dot_spec (Promote.same α) b a
  rw [Matrix.foldl_same_eq_sum] at hab hba
  refine ⟨?_, hab⟩
  rw [hab, hba]
  congr 1
  apply Finset.sum_congr rfl
  intro k _
  exact mul_comm _ _

/-- Scenario of C8: the integer vectors `(1,0)` and `(0,1)` have dot product `0`. -/
theorem dot_comm_witness :
    (dot (Promote.same Int) (⟨[1, 0], rfl, by decide⟩ : Vector Int 2) ⟨[0, 1], rfl, by decide⟩ =
      dot (Promote.same Int) (⟨[0, 1], rfl, by decide⟩ : Vector Int 2) ⟨[1, 0], rfl, by decide⟩) ∧
    dot (Promote.same Int) (⟨[1, 0], rfl, by decide⟩ : Vector Int 2) ⟨[0, 1], rfl, by decide⟩ =
      .ok 0 :=
  ⟨(dot_comm _ _).1, by decide⟩

end Vector

namespace Matrix

variable {α T U W : Type} {Rows Cols OtherCols : Nat}

/-- Claim C9: for every `Rows x Cols` matrix `A` and `Cols x OtherCols` matrix `B`, with any
element types and their conversions, `A * B` returns, and its element `(i, j)` is the
running sum over `k = 0, ..., Cols - 1` in increasing order, starting from zero, of
`A(i,k) * B(k,j)`, converted to the left operand's element type after every addition. -/
theorem mul_entry [OfNat T 0] [Add W] [Mul W] (cv : Promote T U W)
    (ret : Matrix T Rows OtherCols) (A : Matrix T Rows Cols) (B : Matrix U Cols OtherCols) :
    ∃ p, mul cv ret A B = .ok p ∧
      ∀ (i : Fin Rows) (j : Fin OtherCols),
        p.call i.1 j.1 = .ok ((List.finRange Cols).foldl
          (fun t k => cv.assign (cv.left t + cv.left (A.entry i k) * cv.right (B.entry k j)))
          0) := by
  obtain ⟨p, hp, hP⟩ := mul_spec cv ret A B
  refine ⟨p, hp, fun i j => ?_⟩
  rw [call_entry, hP i j]

/-- Instance of C9 with an `int` left operand and a fractional right operand: the row
`(1, 1)` times the column `(0.5, 0.5)` is `0`, because the partial sum is truncated to an
integer after each of the two additions (the exact sum is `1`). -/
theorem mul_entry_witness :
    ∃ p, mul Promote.intFrac (⟨[7], rfl, by decide⟩ : Matrix Int 1 1)
        (⟨[1, 1], rfl, by decide⟩ : Matrix Int 1 2)
        (⟨[1 / 2, 1 / 2], rfl, by decide⟩ : Matrix ℚ 2 1) = .ok p ∧
      p.call 0 0 = .ok 0 := by
  obtain ⟨p, hp, hP⟩ := mul_entry Promote.intFrac (⟨[7], rfl, by decide⟩ : Matrix Int 1 1)
    (⟨[1, 1], rfl, by decide⟩ : Matrix Int 1 2)
    (⟨[1 / 2, 1 / 2], rfl, by decide⟩ : Matrix ℚ 2 1)
  refine ⟨p, hp, ?_⟩
  have h := hP ⟨0, by decide⟩ ⟨0, by decide⟩
  simp only at h
  rw [h]
  congr 1
  have hl : List.finRange 2 = [⟨0, by decide⟩, ⟨1, by decide⟩] := by rfl
  rw [hl]
  simp only [List.foldl_cons, List.foldl_nil]
  have e1 : (⟨[1, 1], rfl, by decide⟩ : Matrix Int 1 2).entry
      ⟨0, by decide⟩ ⟨0, by decide⟩ = 1 := rfl
  have e2 : (⟨[1, 1], rfl, by decide⟩ : Matrix Int 1 2).entry
      ⟨0, by decide⟩ ⟨1, by decide⟩ = 1 := rfl
  have e3 : (⟨[1 / 2, 1 / 2], rfl, by decide⟩ : Matrix ℚ 2 1).entry
      ⟨0, by decide⟩ ⟨0, by decide⟩ = 1 / 2 := rfl
  have e4 : (⟨[1 / 2, 1 / 2], rfl, by decide⟩ : Matrix ℚ 2 1).entry
      ⟨1, by decide⟩ ⟨0, by decide⟩ = 1 / 2 := rfl
  rw [e1, e2, e3, e4]
  have s1 : Promote.intFrac.left (0 : Int) +
      Promote.intFrac.left (1 : Int) * Promote.intFrac.right (1 / 2) = 1 / 2 := by
    simp only [Promote.intFrac, id]
    norm_num
  rw [s1]
  have s2 : Promote.intFrac.assign (1 / 2) = 0 := truncToInt_half
  rw [s2, s1, s2]

/-- Counterexample to C10 as stated: an `int` matrix with element `4` scaled by the
fractional scalar `0.5` has element `2` (the product `2.0` is taken in the fractional
type and then truncated), not `4 * int(0.5) = 0`; and `10 / 2.5` is `4`, not
`10 / int(2.5) = 5`. -/
theorem scalar_converted_first_counterexample :
    mulScalar Promote.intFrac (⟨[4], rfl, by decide⟩ : Matrix Int 1 1) (1 / 2) =
        .ok ⟨[2], rfl, by decide⟩ ∧
      (¬ ∃ p, mulScalar Promote.intFrac (⟨[4], rfl, by decide⟩ : Matrix Int 1 1) (1 / 2) =
          .ok p ∧ p.index 0 = .ok (4 * truncToInt (1 / 2))) ∧
      divScalar Promote.intFrac (⟨[10], rfl, by decide⟩ : Matrix Int 1 1) (5 / 2) =
        .ok ⟨[4], rfl, by decide⟩ ∧
      (¬ ∃ q, divScalar Promote.intFrac (⟨[10], rfl, by decide⟩ : Matrix Int 1 1) (5 / 2) =
          .ok q ∧ q.index 0 = .ok (Int.tdiv 10 (truncToInt (5 / 2)))) := by
  have hmul : mulScalar Promote.intFrac (⟨[4], rfl, by decide⟩ : Matrix Int 1 1) (1 / 2) =
      .ok ⟨[2], rfl, by decide⟩ := by
    obtain ⟨p, hp, hP⟩ := mulScalar_spec Promote.intFrac
      (⟨[4], rfl, by decide⟩ : Matrix Int 1 1) (1 / 2)
    rw [hp]
    congr 1
    apply ext_elem
    intro i
    rw [hP i, fin_one_one i]
    have h : Promote.intFrac.left (4 : Int) * Promote.intFrac.right (1 / 2) = ((2 : Int) : ℚ) := by
      simp only [Promote.intFrac, id]
      norm_num
    show Promote.intFrac.assign
      (Promote.intFrac.left (4 : Int) * Promote.intFrac.right (1 / 2)) = 2
    rw [h]
    exact truncToInt_intCast 2
  have hdiv : divScalar Promote.intFrac (⟨[10], rfl, by decide⟩ : Matrix Int 1 1) (5 / 2) =
      .ok ⟨[4], rfl, by decide⟩ := by
    obtain ⟨q, hq, hQ⟩ := divScalar_spec Promote.intFrac
      (⟨[10], rfl, by decide⟩ : Matrix Int 1 1) (5 / 2)
    rw [hq]
    congr 1
    apply ext_elem
    intro i
    rw [hQ i, fin_one_one i]
    have h : Promote.intFrac.left (10 : Int) / Promote.intFrac.right (5 / 2) = ((4 : Int) : ℚ) := by
      simp only [Promote.intFrac, id]
      norm_num
    show Promote.intFrac.assign
      (Promote.intFrac.left (10 : Int) / Promote.intFrac.right (5 / 2)) = 4
    rw [h]
    exact truncToInt_intCast 4
  refine ⟨hmul, ?_, hdiv, ?_⟩
  · rintro ⟨p, hp, hi⟩
    rw [hmul] at hp
    cases hp
    rw [truncToInt_half] at hi
    revert hi
    decide
  · rintro ⟨q, hq, hi⟩
    rw [hdiv] at hq
    cases hq
    rw [truncToInt_five_halves] at hi
    revert hi
    decide

/-- Claim C10, as amended: for every matrix `m`, scalar `s` and flat index `i`, `m * s` and
`m / s` return, and element `i` is `m[i]` and `s` both converted to the common type,
multiplied (divided) there, and converted back to the element type by the assignment.
When the scalar has the element type, this is `m[i] * s` and `m[i] / s`. -/
theorem scalar_elem [Mul W] [Div W] (cv : Promote T U W) (m : Matrix T Rows Cols) (s : U) :
    (∃ p, mulScalar cv m s = .ok p ∧
      ∀ i : Fin (Rows * Cols),
        p.index i.1 = .ok (cv.assign (cv.left (m.elem i) * cv.right s))) ∧
    (∃ q, divScalar cv m s = .ok q ∧
      ∀ i : Fin (Rows * Cols),
        q.index i.1 = .ok (cv.assign (cv.left (m.elem i) / cv.right s))) ∧
    (∀ (β : Type) [Mul β] [Div β] (n : Matrix β Rows Cols) (t : β),
      (∃ p, mulScalar (Promote.same β) n t = .ok p ∧
        ∀ i : Fin (Rows * Cols), p.index i.1 = .ok (n.elem i * t)) ∧
      (∃ q, divScalar (Promote.same β) n t = .ok q ∧
        ∀ i : Fin (Rows * Cols), q.index i.1 = .ok (n.elem i / t))) := by
  refine ⟨?_, ?_, fun β _ _ n t => ⟨?_, ?_⟩⟩
  · obtain ⟨p, hp, hP⟩ := mulScalar_spec cv m s
    exact ⟨p, hp, fun i => by rw [index_elem, hP i]⟩
  · obtain ⟨q, hq, hQ⟩ := divScalar_spec cv m s
    exact ⟨q, hq, fun i => by rw [index_elem, hQ i]⟩
  · obtain ⟨p, hp, hP⟩ := mulScalar_spec (Promote.same β) n t
    exact ⟨p, hp, fun i => by rw [index_elem, hP i]; rfl⟩
  · obtain ⟨q, hq, hQ⟩ := divScalar_spec (Promote.same β) n t
    exact ⟨q, hq, fun i => by rw [index_elem, hQ i]; rfl⟩

/-- Instance of `scalar_elem` for an `int` matrix and a fractional scalar. -/
theorem scalar_elem_witness :
    ∃ p, mulScalar Promote.intFrac (⟨[4], rfl, by decide⟩ : Matrix Int 1 1) (1 / 2) = .ok p ∧
      ∀ i : Fin (1 * 1), p.index i.1 = .ok (truncToInt (((4 : Int) : ℚ) * (1 / 2))) := by
  obtain ⟨p, hp, hP⟩ :=
    (scalar_elem Promote.intFrac (⟨[4], rfl, by decide⟩ : Matrix Int 1 1) (1 / 2)).1
  refine ⟨p, hp, fun i => ?_⟩
  rw [hP i, fin_one_one i]
  rfl

end Matrix

/-- Claim C11, evaluated on the 2 x 2 integer matrix `(1,2,3,4)`: the text written has one
space after every element, the last element of each row included, so it is not the rows
joined by a newline with the elements of a row joined by single spaces. The newline is
written before every row but the first, so there is none after the final row. -/
theorem operatorShlOstream_trailing_space :
    operatorShlOstream (fun x : Int => toString x) ""
        (⟨[1, 2, 3, 4], rfl, by decide⟩ : Matrix Int 2 2) = .ok "1 2 \n3 4 " ∧
      operatorShlOstream (fun x : Int => toString x) ""
        (⟨[1, 2, 3, 4], rfl, by decide⟩ : Matrix Int 2 2) ≠
          .ok ("\n".intercalate [" ".intercalate ["1", "2"], " ".intercalate ["3", "4"]]) := by
  decide

namespace Matrix

variable {α T U W : Type} {Rows Cols OtherCols LastCols : Nat}

/-- Claim C12: constructing a `Rows x Cols` matrix from a value list (of at least one
value) returns a matrix if and only if the number of values is `Rows * Cols`; for every
other count the arity `assert` fails. -/
theorem ofValues_arity (self : Matrix α Rows Cols) (first : α) (args : List α) :
    ((∃ m, ofValues self first args = .ok m) ↔ (first :: args).length = Rows * Cols) ∧
      ((first :: args).length ≠ Rows * Cols →
        ofValues self first args = .error Fault.assertArity) := by
  have hbad : (first :: args).length ≠ Rows * Cols →
      ofValues self first args = .error Fault.assertArity := by
    intro h
    have h' : ¬ args.length + 1 = Rows * Cols := by simpa using h
    unfold ofValues
    rw [if_neg h']
  refine ⟨⟨fun ⟨m, hm⟩ => ?_, fun h => ⟨_, ofValues_ok self first args h⟩⟩, hbad⟩
  by_contra h
  rw [hbad h] at hm
  cases hm

/-- Instance of C12: three values for a 2 x 2 matrix fail the arity `assert`, four values
construct the matrix. -/
theorem ofValues_arity_witness :
    ofValues (⟨[0, 0, 0, 0], rfl, by decide⟩ : Matrix Int 2 2) 1 [2, 3] =
        .error Fault.assertArity ∧
      ∃ m, ofValues (⟨[0, 0, 0, 0], rfl, by decide⟩ : Matrix Int 2 2) 1 [2, 3, 4] = .ok m :=
  ⟨(ofValues_arity _ 1 [2, 3]).2 (by decide), (ofValues_arity _ 1 [2, 3, 4]).1.2 rfl⟩

/-- Claim C13: for `int` arguments `r`, `c` and a storage that is an object (fewer than
`2 ^ 63` elements), `at(r, c)` passes its bounds `assert` exactly when `0 <= r < Rows` and
`0 <= c < Cols`, and then reads and writes the element at flat index `r * Cols + c`,
which is less than `size()`; `at(i)` passes exactly when `0 <= i < size()` and then is
`data_[i]`; and `(r, c) -> r * Cols + c` is injective on valid pairs and onto
`[0, size())`. -/
theorem at_bounds (m : Matrix α Rows Cols) (r c i : Int) (hr : IsInt r) (hc : IsInt c)
    (hi : IsInt i) (hsize : Rows * Cols < 2 ^ 63) :
    (m.atRowCol r c ≠ .error Fault.assertBounds ↔
        (0 ≤ r ∧ r < (Rows : Int) ∧ 0 ≤ c ∧ c < (Cols : Int))) ∧
      ((0 ≤ r ∧ r < (Rows : Int) ∧ 0 ≤ c ∧ c < (Cols : Int)) →
        r.toNat * Cols + c.toNat < m.size ∧
        m.atRowCol r c = m.index (r.toNat * Cols + c.toNat) ∧
        (∃ x, m.atRowCol r c = .ok x) ∧
        ∀ v, m.atRowColAssign r c v = m.indexAssign (r.toNat * Cols + c.toNat) v) ∧
      (m.atIndex i ≠ .error Fault.assertBounds ↔ (0 ≤ i ∧ i < (m.size : Int))) ∧
      ((0 ≤ i ∧ i < (m.size : Int)) →
        m.atIndex i = m.index i.toNat ∧ ∃ x, m.atIndex i = .ok x) ∧
      (∀ r₁ c₁ r₂ c₂ : Nat, r₁ < Rows → c₁ < Cols → r₂ < Rows → c₂ < Cols →
        r₁ * Cols + c₁ = r₂ * Cols + c₂ → r₁ = r₂ ∧ c₁ = c₂) ∧
      (∀ k : Nat, k < m.size → ∃ r₁ c₁, r₁ < Rows ∧ c₁ < Cols ∧ r₁ * Cols + c₁ = k) := by
  have hvalid : (0 ≤ r ∧ r < (Rows : Int) ∧ 0 ≤ c ∧ c < (Cols : Int)) →
      r.toNat * Cols + c.toNat < m.size ∧
      m.atRowCol r c = m.index (r.toNat * Cols + c.toNat) ∧
      (∃ x, m.atRowCol r c = .ok x) ∧
      ∀ v, m.atRowColAssign r c v = m.indexAssign (r.toNat * Cols + c.toNat) v := by
    intro h
    have hcond := (assert_rowCol_iff hr hc hsize).2 h
    obtain ⟨hidx, hlt⟩ := rowCol_index hr hc hsize h
    have hread : m.atRowCol r c = m.index (r.toNat * Cols + c.toNat) := by
      unfold atRowCol
      rw [if_pos hcond, hidx]
    refine ⟨hlt, hread, ⟨_, hread.trans (index_of_lt m hlt)⟩, fun v => ?_⟩
    unfold atRowColAssign
    rw [if_pos hcond, hidx]
  have hflat : (0 ≤ i ∧ i < (m.size : Int)) →
      m.atIndex i = m.index i.toNat ∧ ∃ x, m.atIndex i = .ok x := by
    intro h
    have hs : m.size = Rows * Cols := rfl
    have hlt : i.toNat < Rows * Cols := by omega
    have hcond : toSizeT i < Rows * Cols := (toSizeT_lt_iff hi hsize).2 ⟨h.1, by omega⟩
    have hread : m.atIndex i = m.index i.toNat := by
      unfold atIndex
      rw [if_pos hcond, if_pos h.1]
    exact ⟨hread, _, hread.trans (index_of_lt m hlt)⟩
  refine ⟨⟨fun h => ?_, fun h => ?_⟩, hvalid, ⟨fun h => ?_, fun h => ?_⟩, hflat,
    fun r₁ c₁ r₂ c₂ _ h1 _ h2 h => flat_inj h1 h2 h, fun k hk => flat_surj hk⟩
  · by_contra hn
    apply h
    unfold atRowCol
    rw [if_neg (fun hc' => hn ((assert_rowCol_iff hr hc hsize).1 hc'))]
  · obtain ⟨_, _, ⟨x, hx⟩, _⟩ := hvalid h
    rw [hx]
    exact fun h' => by cases h'
  · by_contra hn
    apply h
    have hs : m.size = Rows * Cols := rfl
    unfold atIndex
    rw [if_neg (fun hc' => hn (by
      have := (toSizeT_lt_iff hi hsize).1 hc'
      omega))]
  · obtain ⟨_, x, hx⟩ := hflat h
    rw [hx]
    exact fun h' => by cases h'

/-- Instance of C13 on a 2 x 2 matrix: `at(1, 0)` and `at(2)` pass and read element `2`,
`at(-1, 0)` and `at(-1)` fail the `assert`. -/
theorem at_bounds_witness :
    (⟨[5, 6, 7, 8], rfl, by decide⟩ : Matrix Int 2 2).atRowCol 1 0 = .ok 7 ∧
      (⟨[5, 6, 7, 8], rfl, by decide⟩ : Matrix Int 2 2).atIndex 2 = .ok 7 ∧
      ¬ ((⟨[5, 6, 7, 8], rfl, by decide⟩ : Matrix Int 2 2).atRowCol (-1) 0 ≠
        .error Fault.assertBounds) ∧
      ¬ ((⟨[5, 6, 7, 8], rfl, by decide⟩ : Matrix Int 2 2).atIndex (-1) ≠
        .error Fault.assertBounds) := by
  have h1 := at_bounds (⟨[5, 6, 7, 8], rfl, by decide⟩ : Matrix Int 2 2) 1 0 2
    (by decide) (by decide) (by decide) (by decide)
  have h2 := at_bounds (⟨[5, 6, 7, 8], rfl, by decide⟩ : Matrix Int 2 2) (-1) 0 (-1)
    (by decide) (by decide) (by decide) (by decide)
  refine ⟨?_, ?_, fun h => ?_, fun h => ?_⟩
  · rw [(h1.2.1 (by decide)).2.1]
    decide
  · rw [(h1.2.2.2.1 (by decide)).1]
    decide
  · exact absurd (h2.1.1 h).1 (by decide)
  · exact absurd (h2.2.2.1.1 h).1 (by decide)

/-- Claim C14: `Identity()` of a square matrix returns a matrix whose element `(i, j)`
reads `1` when `i = j` and `0` otherwise, whatever the indeterminate local held. -/
theorem Identity_entries [OfNat α 0] [OfNat α 1] (ret : Matrix α Rows Rows) :
    ∃ e, Identity ret = .ok e ∧
      ∀ (i j : Fin Rows), e.call i.1 j.1 = .ok (if i = j then 1 else 0) := by
  obtain ⟨e, he, hE⟩ := Identity_spec ret
  refine ⟨e, he, fun i j => ?_⟩
  rw [call_entry, hE i j]

/-- Instance of C14: the 2 x 2 integer identity. -/
theorem Identity_entries_witness :
    ∃ e, Identity (⟨[7, 7, 7, 7], rfl, by decide⟩ : Matrix Int 2 2) = .ok e ∧
      e = ⟨[1, 0, 0, 1], rfl, by decide⟩ := by
  obtain ⟨e, he, _⟩ := Identity_entries (⟨[7, 7, 7, 7], rfl, by decide⟩ : Matrix Int 2 2)
  have h2 : Identity (⟨[7, 7, 7, 7], rfl, by decide⟩ : Matrix Int 2 2) =
      .ok ⟨[1, 0, 0, 1], rfl, by decide⟩ := by decide
  exact ⟨e, he, Except.ok.inj (he.symm.trans h2)⟩

end Matrix

namespace Vector

variable {α T U W : Type} {Size : Nat}

/-- Counterexample to C16 as stated: for the `Vector2i` `(46341, 0)` the accumulation in
`int` overflows, `squareNorm()` is `-2147479015`, and `norm()` is `INT_MIN`, which is not
the floor square root of `squareNorm()`. -/
theorem norm_int_overflow_counterexample :
    IsInt 46341 ∧
      squareNorm Promote.int (⟨[46341, 0], rfl, by decide⟩ : Vector Int 2) = -2147479015 ∧
      norm Promote.int NormOps.int (⟨[46341, 0], rfl, by decide⟩ : Vector Int 2) =
        -2147483648 ∧
      ¬ (0 ≤ norm Promote.int NormOps.int (⟨[46341, 0], rfl, by decide⟩ : Vector Int 2) ∧
        norm Promote.int NormOps.int (⟨[46341, 0], rfl, by decide⟩ : Vector Int 2) *
            norm Promote.int NormOps.int (⟨[46341, 0], rfl, by decide⟩ : Vector Int 2) ≤
          squareNorm Promote.int (⟨[46341, 0], rfl, by decide⟩ : Vector Int 2) ∧
        squareNorm Promote.int (⟨[46341, 0], rfl, by decide⟩ : Vector Int 2) <
          (norm Promote.int NormOps.int (⟨[46341, 0], rfl, by decide⟩ : Vector Int 2) + 1) *
            (norm Promote.int NormOps.int (⟨[46341, 0], rfl, by decide⟩ : Vector Int 2) + 1)) := by
  have hs : squareNorm Promote.int (⟨[46341, 0], rfl, by decide⟩ : Vector Int 2) =
      -2147479015 := by decide
  have hn : norm Promote.int NormOps.int (⟨[46341, 0], rfl, by decide⟩ : Vector Int 2) =
      -2147483648 := by
    show NormOps.int.sqrt (squareNorm Promote.int _) = -2147483648
    rw [hs]
    rw [int_sqrt_neg (by decide)]
    decide
  refine ⟨by decide, hs, hn, ?_⟩
  rw [hn]
  intro h
  exact absurd h.1 (by decide)

/-- Claim C16, as amended: for every vector `v`, `squareNorm()` is the running sum of the
squares of its elements, converted to the element type after every addition, and `norm()`
is `std::sqrt` of it. For an `int` vector whose sum of squares is below `2 ^ 31` (the
accumulation does not overflow), `squareNorm()` is the sum of the squares and `norm()` is
its floor square root `r`: `0 <= r` and `r * r <= squareNorm() < (r + 1) * (r + 1)`. The
vector `(3,4,0)` has `squareNorm` 25 and `norm` 5, as an `int` vector and in exact real
arithmetic. -/
theorem squareNorm_norm [OfNat T 0] [Add W] [Mul W] (cv : Promote T T W) (ops : NormOps T)
    (v : Vector T Size) :
    squareNorm cv v = (List.finRange (Size * 1)).foldl
        (fun t k => cv.assign
          (cv.left t + cv.left (Matrix.elem v k) * cv.right (Matrix.elem v k))) 0 ∧
      norm cv ops v = ops.sqrt (squareNorm cv v) ∧
      (∀ w : Vector Int Size,
        (∑ i : Fin (Size * 1), Matrix.elem w i * Matrix.elem w i) < (2 : Int) ^ 31 →
        squareNorm Promote.int w =
          ∑ i : Fin (Size * 1), Matrix.elem w i * Matrix.elem w i ∧
        0 ≤ norm Promote.int NormOps.int w ∧
        norm Promote.int NormOps.int w * norm Promote.int NormOps.int w ≤
          squareNorm Promote.int w ∧
        squareNorm Promote.int w <
          (norm Promote.int NormOps.int w + 1) * (norm Promote.int NormOps.int w + 1)) ∧
      (squareNorm Promote.int (⟨[3, 4, 0], rfl, by decide⟩ : Vector Int 3) = 25 ∧
        norm Promote.int NormOps.int (⟨[3, 4, 0], rfl, by decide⟩ : Vector Int 3) = 5) ∧
      (squareNorm (Promote.same ℝ) (⟨[3, 4, 0], rfl, by decide⟩ : Vector ℝ 3) = 25 ∧
        norm (Promote.same ℝ) (NormOps.exact Real.sqrt)
          (⟨[3, 4, 0], rfl, by decide⟩ : Vector ℝ 3) = 5) := by
  have h25 : squareNorm Promote.int (⟨[3, 4, 0], rfl, by decide⟩ : Vector Int 3) = 25 := by
    decide
  have r25 : squareNorm (Promote.same ℝ) (⟨[3, 4, 0], rfl, by decide⟩ : Vector ℝ 3) = 25 := by
    simp only [squareNorm, Promote.same, id, List.foldl_cons, List.foldl_nil]
    norm_num
  refine ⟨squareNorm_spec cv v, rfl, fun w hw => ?_, ⟨h25, ?_⟩, r25, ?_⟩
  · have hsum := squareNorm_int_exact w hw
    have h0 : 0 ≤ squareNorm Promote.int w := by
      rw [hsum]
      exact Finset.sum_nonneg (fun i _ => mul_self_nonneg _)
    have h1 : squareNorm Promote.int w < (2 : Int) ^ 31 := by rw [hsum]; exact hw
    exact ⟨hsum, int_sqrt_floor h0 h1⟩
  · show NormOps.int.sqrt (squareNorm Promote.int _) = 5
    rw [h25]
    exact int_sqrt_25
  · show Real.sqrt (squareNorm (Promote.same ℝ) _) = 5
    rw [r25, show (25 : ℝ) = 5 * 5 by norm_num]
    exact Real.sqrt_mul_self (by norm_num)

/-- Instance of C16: the `int` vector `(1, 1)` has `squareNorm` 2 and a `norm` that is
truncated to 1. -/
theorem squareNorm_norm_witness :
    squareNorm Promote.int (⟨[1, 1], rfl, by decide⟩ : Vector Int 2) = 2 ∧
      norm Promote.int NormOps.int (⟨[1, 1], rfl, by decide⟩ : Vector Int 2) = 1 := by
  have hsq : squareNorm (Promote.same Int) (⟨[1, 1], rfl, by decide⟩ : Vector Int 2) = 2 := by
    decide
  have h := (squareNorm_norm Promote.int NormOps.int
    (⟨[1, 1], rfl, by decide⟩ : Vector Int 2)).2.2.1 ⟨[1, 1], rfl, by decide⟩
    (by rw [← squareNorm_same_eq_sum, hsq]; decide)
  have h2 : squareNorm Promote.int (⟨[1, 1], rfl, by decide⟩ : Vector Int 2) = 2 := by
    decide
  rw [h2] at h
  refine ⟨h2, ?_⟩
  obtain ⟨_, h0, h1, h3⟩ := h
  nlinarith

/-- Claim C17: for every vector `v`, `v.normalized()` leaves `v` unchanged and returns
exactly what `normalize()` makes of a copy of `v`; each element of the result is `v[i]`
divided by the norm of the original `v`. -/
theorem normalized_eq_normalize [OfNat T 0] [Add W] [Mul W] (cv : Promote T T W)
    (ops : NormOps T) (v : Vector T Size) :
    (normalized cv ops v).1 = v ∧
      (normalized cv ops v).2 = normalize cv ops ⟨v.data_, v.size_eq, v.size_fits⟩ ∧
      ∀ i : Fin (Size * 1),
        Matrix.index (normalized cv ops v).2 i.1 =
          .ok (ops.div (Matrix.elem v i) (norm cv ops v)) := by
  refine ⟨rfl, rfl, fun i => ?_⟩
  rw [Matrix.index_elem]
  exact congrArg Except.ok (normalize_elem cv ops v i)

/-- Instance of C17: the `int` vector `(6, 8)` has norm 10; both members give `(0, 0)`. -/
theorem normalized_eq_normalize_witness :
    (normalized Promote.int NormOps.int (⟨[6, 8], rfl, by decide⟩ : Vector Int 2)).1 =
        ⟨[6, 8], rfl, by decide⟩ ∧
      (normalized Promote.int NormOps.int (⟨[6, 8], rfl, by decide⟩ : Vector Int 2)).2 =
        normalize Promote.int NormOps.int ⟨[6, 8], rfl, by decide⟩ :=
  ⟨(normalized_eq_normalize _ _ _).1, (normalized_eq_normalize _ _ _).2.1⟩

end Vector

section Overfill

variable {α : Type} {Rows Cols : Nat}

/-- Claim C18: for every target, a chain that supplies more than `size()` values aborts in
the bounds `assert` of the staged storage and the target is exactly what it was before
the chain started; when the storage is not empty, the abort is in an `operator,` call
made after exactly `size()` values have been staged, before any destructor runs. -/
theorem sequentialInit_overfilled (target tmp_ : Matrix α Rows Cols) (first : α)
    (rest : List α) (hlen : Rows * Cols < (first :: rest).length) :
    sequentialInit target tmp_ first rest = (target, some Fault.assertBounds) ∧
      (0 < Rows * Cols →
        ∃ ci ci', operatorShl target tmp_ first = .ok ci ∧
          ci.run rest = (ci', some Fault.assertBounds) ∧
          ci'.init_count_ = ((Rows * Cols : Nat) : Int) ∧ ci'.target_ = target) := by
  have hlen' : Rows * Cols < rest.length + 1 := by simpa using hlen
  rcases Nat.eq_zero_or_pos (Rows * Cols) with h0 | hpos
  · refine ⟨?_, fun h => absurd h (by omega)⟩
    have hfail : operatorShl target tmp_ first = .error Fault.assertBounds := by
      have := Matrix.atIndexAssign_size tmp_ first
      rw [h0] at this
      simp only [Nat.cast_zero] at this
      simp only [operatorShl, CommaInitializer.init, bind, Except.bind, this]
    simp only [sequentialInit, hfail]
  · obtain ⟨t0, ht0, _⟩ := Matrix.atIndexAssign_natCast tmp_ hpos first
    have hinit : operatorShl target tmp_ first = .ok ⟨target, t0, 1⟩ := by
      simp only [Nat.cast_zero] at ht0
      simp only [operatorShl, CommaInitializer.init, bind, Except.bind, ht0]
      rfl
    obtain ⟨ci', hrun, htgt, hcnt⟩ :=
      CommaInitializer.run_overfill rest (⟨target, t0, 1⟩ : CommaInitializer α Rows Cols) 1
        (by simp) (by omega) (by omega)
    refine ⟨?_, fun _ => ⟨_, ci', hinit, hrun, hcnt, htgt⟩⟩
    simp only [sequentialInit, hinit, hrun]
    exact congrArg (fun t => (t, some Fault.assertBounds)) htgt

/-- Instance of C18: `target << 1, 2, 3, 4, 5;` on a 2 x 2 target. -/
theorem sequentialInit_overfilled_witness :
    sequentialInit (⟨[5, 6, 7, 8], rfl, by decide⟩ : Matrix Int 2 2)
      ⟨[9, 9, 9, 9], rfl, by decide⟩ 1 [2, 3, 4, 5] =
        (⟨[5, 6, 7, 8], rfl, by decide⟩, some Fault.assertBounds) :=
  (sequentialInit_overfilled _ _ 1 [2, 3, 4, 5] (by decide)).1

end Overfill

namespace Matrix

variable {α T U W : Type} {Rows Cols OtherCols LastCols : Nat}

/-- Claim C19: over a commutative ring, matrix multiplication is associative: all four
products return, and `(A * B) * C` is the same matrix as `A * (B * C)`. -/
theorem mul_associative [CommRing α] (A : Matrix α Rows Cols) (B : Matrix α Cols OtherCols)
    (C : Matrix α OtherCols LastCols) (ret₁ : Matrix α Rows OtherCols)
    (ret₂ : Matrix α Rows LastCols) (ret₃ : Matrix α Cols LastCols)
    (ret₄ : Matrix α Rows LastCols) :
    ∃ ab abc bc,
      mul (Promote.same α) ret₁ A B = .ok ab ∧ mul (Promote.same α) ret₂ ab C = .ok abc ∧
      mul (Promote.same α) ret₃ B C = .ok bc ∧ mul (Promote.same α) ret₄ A bc = .ok abc := by
  obtain ⟨ab, hab, hAB⟩ := mul_spec (Promote.same α) ret₁ A B
  obtain ⟨abc, habc, hABC⟩ := mul_spec (Promote.same α) ret₂ ab C
  obtain ⟨bc, hbc, hBC⟩ := mul_spec (Promote.same α) ret₃ B C
  obtain ⟨q, hq, hQ⟩ := mul_spec (Promote.same α) ret₄ A bc
  have hqe : q = abc := by
    apply ext_entry
    intro i l
    rw [hQ i l, hABC i l, foldl_same_eq_sum, foldl_same_eq_sum]
    simp only [hAB, hBC, foldl_same_eq_sum, Finset.mul_sum, Finset.sum_mul]
    rw [Finset.sum_comm]
    apply Finset.sum_congr rfl
    intro k _
    apply Finset.sum_congr rfl
    intro j _
    exact (mul_assoc _ _ _).symm
  exact ⟨ab, abc, bc, hab, habc, hbc, hqe ▸ hq⟩

/-- Instance of C19 on 2 x 2 integer matrices. -/
theorem mul_associative_witness :
    ∃ ab abc bc,
      mul (Promote.same Int) (⟨[0, 0, 0, 0], rfl, by decide⟩ : Matrix Int 2 2)
        (⟨[1, 2, 3, 4], rfl, by decide⟩ : Matrix Int 2 2)
        (⟨[0, 1, 1, 0], rfl, by decide⟩ : Matrix Int 2 2) = .ok ab ∧
      mul (Promote.same Int) (⟨[0, 0, 0, 0], rfl, by decide⟩ : Matrix Int 2 2) ab
        (⟨[2, 0, 1, 3], rfl, by decide⟩ : Matrix Int 2 2) = .ok abc ∧
      mul (Promote.same Int) (⟨[0, 0, 0, 0], rfl, by decide⟩ : Matrix Int 2 2)
        (⟨[0, 1, 1, 0], rfl, by decide⟩ : Matrix Int 2 2)
        (⟨[2, 0, 1, 3], rfl, by decide⟩ : Matrix Int 2 2) = .ok bc ∧
      mul (Promote.same Int) (⟨[0, 0, 0, 0], rfl, by decide⟩ : Matrix Int 2 2)
        (⟨[1, 2, 3, 4], rfl, by decide⟩ : Matrix Int 2 2) bc = .ok abc :=
  mul_associative _ _ _ _ _ _ _

/-- Claim C20: for every shape, every flat index that the loops of `operator*`,
`transpose` and `Identity` compute through `operator()` is below the element count of
the matrix it is applied to (both operands and the result), every such read and write
succeeds, and the three members return: the out-of-range branch is never taken. -/
theorem unchecked_access_in_range [OfNat T 0] [OfNat T 1] [Add W] [Mul W]
    (cv : Promote T U W) (A : Matrix T Rows Cols) (B : Matrix U Cols OtherCols)
    (ret : Matrix T Rows OtherCols) (retT : Matrix T Cols Rows) (retI : Matrix T Rows Rows) :
    (∀ (i : Fin Rows) (k : Fin Cols) (j : Fin OtherCols),
        i.1 * Cols + k.1 < A.size ∧ k.1 * OtherCols + j.1 < B.size ∧
        i.1 * OtherCols + j.1 < ret.size ∧
        (∃ a, A.call i.1 k.1 = .ok a) ∧ (∃ b, B.call k.1 j.1 = .ok b) ∧
        ∀ (s : Matrix T Rows OtherCols) (t : T), ∃ s', s.callAssign i.1 j.1 t = .ok s') ∧
      (∃ p, mul cv ret A B = .ok p) ∧
      (∀ (i : Fin Rows) (j : Fin Cols),
        i.1 * Cols + j.1 < A.size ∧ j.1 * Rows + i.1 < retT.size ∧
        (∃ a, A.call i.1 j.1 = .ok a) ∧
        ∀ (s : Matrix T Cols Rows) (x : T), ∃ s', s.callAssign j.1 i.1 x = .ok s') ∧
      (∃ t, transpose retT A = .ok t) ∧
      (∀ (i j : Fin Rows),
        i.1 * Rows + j.1 < retI.size ∧
        ∀ (s : Matrix T Rows Rows) (x : T), ∃ s', s.callAssign i.1 j.1 x = .ok s') ∧
      (∃ e, Identity retI = .ok e) := by
  refine ⟨fun i k j => ⟨flat_lt i.2 k.2, flat_lt k.2 j.2, flat_lt i.2 j.2,
      ⟨_, call_entry A i k⟩, ⟨_, call_entry B k j⟩, fun s t => ?_⟩, ?_,
    fun i j => ⟨flat_lt i.2 j.2, flat_lt j.2 i.2, ⟨_, call_entry A i j⟩, fun s x => ?_⟩, ?_,
    fun i j => ⟨flat_lt i.2 j.2, fun s x => ?_⟩, ?_⟩
  · obtain ⟨s', hs', _⟩ := callAssign_of_lt s i.2 j.2 t
    exact ⟨s', hs'⟩
  · obtain ⟨p, hp, _⟩ := mul_spec cv ret A B
    exact ⟨p, hp⟩
  · obtain ⟨s', hs', _⟩ := callAssign_of_lt s j.2 i.2 x
    exact ⟨s', hs'⟩
  · obtain ⟨t, ht, _⟩ := transpose_spec retT A
    exact ⟨t, ht⟩
  · obtain ⟨s', hs', _⟩ := callAssign_of_lt s i.2 j.2 x
    exact ⟨s', hs'⟩
  · obtain ⟨e, he, _⟩ := Identity_spec retI
    exact ⟨e, he⟩

/-- Instance of C20: a 2 x 3 by 3 x 1 product, the transpose of the 2 x 3 matrix and the
2 x 2 identity all return. -/
theorem unchecked_access_in_range_witness :
    (∃ p, mul (Promote.same Int) (⟨[0, 0], rfl, by decide⟩ : Matrix Int 2 1)
        (⟨[1, 2, 3, 4, 5, 6], rfl, by decide⟩ : Matrix Int 2 3)
        (⟨[1, 0, 1], rfl, by decide⟩ : Matrix Int 3 1) = .ok p) ∧
      (∃ t, transpose (⟨[0, 0, 0, 0, 0, 0], rfl, by decide⟩ : Matrix Int 3 2)
        (⟨[1, 2, 3, 4, 5, 6], rfl, by decide⟩ : Matrix Int 2 3) = .ok t) ∧
      (∃ e, Identity (⟨[0, 0, 0, 0], rfl, by decide⟩ : Matrix Int 2 2) = .ok e) :=
  have h := unchecked_access_in_range (Promote.same Int)
    (⟨[1, 2, 3, 4, 5, 6], rfl, by decide⟩ : Matrix Int 2 3)
    (⟨[1, 0, 1], rfl, by decide⟩ : Matrix Int 3 1)
    (⟨[0, 0], rfl, by decide⟩ : Matrix Int 2 1)
    (⟨[0, 0, 0, 0, 0, 0], rfl, by decide⟩ : Matrix Int 3 2)
    (⟨[0, 0, 0, 0], rfl, by decide⟩ : Matrix Int 2 2)
  ⟨h.2.1, h.2.2.2.1, h.2.2.2.2.2⟩

end Matrix

end Renderer
